import Mathlib

/-!
# The command interpreter of `main.cpp`

A shallow embedding of the text-command part of `src/src/main.cpp`:

* the four `std::regex` patterns (lines 50-55) as data, run by a backtracking
  matcher that follows the ECMAScript priority rules (greedy `+`, left
  alternative first, leftmost start position first);
* `applyTransformations` (lines 63-126) and the menu branch of `processInput`
  (lines 163-231) as explicit state passing over the globals they touch
  (`gameObjects`, `graveAccentKeyPressed`, the console).

A `std::string` is a list of characters.  A `float` argument is kept as the
exact decimal that `std::stof` converts, before rounding to binary32; a model
matrix is kept as the sequence of operations composed into it.
-/

namespace GLProject

/-- A `std::string`. -/
abbrev Str := List Char

/-! ## Character classes -/

/-- The class `\s` (`isspace` in the classic locale): space, `\t`, `\n`, `\v`, `\f`, `\r`. -/
def isSpace (c : Char) : Bool := c.toNat == 32 || (9 ≤ c.toNat && c.toNat ≤ 13)

/-- The class `\d`: the decimal digits. -/
def isDigit (c : Char) : Bool := 48 ≤ c.toNat && c.toNat ≤ 57

/-- The bracket expression `[-\d\.]`. -/
def isNumeric (c : Char) : Bool := c == '-' || isDigit c || c == '.'

/-! ## Regular expressions -/

/-- The one-character matchers that occur in the four patterns. -/
inductive Atom where
  | lit (c : Char)
  | space
  | nonSpace
  | numeric
  deriving DecidableEq, Repr

/-- Whether the atom accepts the character. -/
def Atom.test : Atom → Char → Bool
  | .lit c, x => x == c
  | .space, x => isSpace x
  | .nonSpace, x => !isSpace x
  | .numeric, x => isNumeric x

/-- The regular expressions that the four patterns are built from. -/
inductive Regex where
  | atom (a : Atom)
  | plus (a : Atom)
  | cat (r s : Regex)
  | alt (r s : Regex)
  | group (k : Nat) (r : Regex)
  | bol
  | eol
  deriving DecidableEq, Repr

/-- The concatenation of a non-empty sequence of expressions. -/
def Regex.seq (r : Regex) : List Regex → Regex
  | [] => r
  | s :: rs => .cat r (Regex.seq s rs)

/-- A numeric argument: the capture group `([-\d\.]+)`. -/
def numberGroup (k : Nat) : Regex := .group k (.plus .numeric)

/-- Line 50: `^(\S+)\s+(\S+)\s+(0|1)$`. -/
def gameObjectCreationPattern : Regex :=
  Regex.seq .bol [.group 1 (.plus .nonSpace), .plus .space, .group 2 (.plus .nonSpace),
    .plus .space, .group 3 (.alt (.atom (.lit '0')) (.atom (.lit '1'))), .eol]

/-- Line 53: `t\s+([-\d\.]+)\s+([-\d\.]+)\s+([-\d\.]+)`. -/
def translatePattern : Regex :=
  Regex.seq (.atom (.lit 't')) [.plus .space, numberGroup 1, .plus .space, numberGroup 2,
    .plus .space, numberGroup 3]

/-- Line 54: `r\s+([-\d\.]+)\s+([-\d\.]+)\s+([-\d\.]+)\s+([-\d\.]+)`. -/
def rotatePattern : Regex :=
  Regex.seq (.atom (.lit 'r')) [.plus .space, numberGroup 1, .plus .space, numberGroup 2,
    .plus .space, numberGroup 3, .plus .space, numberGroup 4]

/-- Line 55: `s\s+([-\d\.]+)\s+([-\d\.]+)\s+([-\d\.]+)`. -/
def scalePattern : Regex :=
  Regex.seq (.atom (.lit 's')) [.plus .space, numberGroup 1, .plus .space, numberGroup 2,
    .plus .space, numberGroup 3]

/-- A state of the matcher: the offset of the current position in the subject,
the text from there to the end, and the captures recorded so far (latest first). -/
structure MState where
  pos : Nat
  rest : Str
  caps : List (Nat × Str)
  deriving DecidableEq, Repr

/-- Greedy `a+` followed by the continuation `k`: one character is mandatory,
a further iteration is tried before the continuation. -/
def plusLoop (a : Atom) (k : MState → Option MState) (caps : List (Nat × Str)) :
    Nat → Str → Option MState
  | _, [] => none
  | pos, c :: cs =>
    if a.test c then
      match plusLoop a k caps (pos + 1) cs with
      | some r => some r
      | none => k ⟨pos + 1, cs, caps⟩
    else none

/-- Backtracking match of `r` at the state `st`, followed by the continuation
`k`; `first` is the offset at which the searched range begins (where `^` holds). -/
def matchHere (first : Nat) : Regex → (MState → Option MState) → MState → Option MState
  | .atom a, k, st =>
    match st.rest with
    | [] => none
    | c :: cs => if a.test c then k ⟨st.pos + 1, cs, st.caps⟩ else none
  | .plus a, k, st => plusLoop a k st.caps st.pos st.rest
  | .cat r s, k, st => matchHere first r (fun st' => matchHere first s k st') st
  | .alt r s, k, st =>
    match matchHere first r k st with
    | some res => some res
    | none => matchHere first s k st
  | .group n r, k, st =>
    matchHere first r
      (fun st' => k ⟨st'.pos, st'.rest, (n, st.rest.take (st'.pos - st.pos)) :: st'.caps⟩) st
  | .bol, k, st => if st.pos = first then k st else none
  | .eol, k, st => if st.rest = [] then k st else none

/-- A `std::smatch`: where the whole match begins and ends in the subject, and
the sub-matches. -/
structure Match where
  start : Nat
  stop : Nat
  caps : List (Nat × Str)
  deriving DecidableEq, Repr

/-- The text of sub-match `k`, as in `matches[k].str()`. -/
def Match.str (m : Match) (k : Nat) : Str := (m.caps.lookup k).getD []

/-- The start positions are tried from left to right, the end of the text included. -/
def searchFrom (re : Regex) (first : Nat) : Nat → Str → Option Match
  | pos, [] =>
    match matchHere first re some ⟨pos, [], []⟩ with
    | some st => some ⟨pos, st.pos, st.caps⟩
    | none => none
  | pos, c :: cs =>
    match matchHere first re some ⟨pos, c :: cs, []⟩ with
    | some st => some ⟨pos, st.pos, st.caps⟩
    | none => searchFrom re first (pos + 1) cs

/-- The call `std::regex_search(searchStart, text.cend(), matches, re)`, with
`searchStart` an offset into `text`. -/
def regex_search (text : Str) (searchStart : Nat) (re : Regex) : Option Match :=
  searchFrom re searchStart searchStart (text.drop searchStart)

/-! ## Number conversion -/

/-- The two exceptions of `std::stof`. -/
inductive StofError where
  | invalid_argument
  | out_of_range
  deriving DecidableEq, Repr

/-- The decimal that a conversion reads: `± digits / 10 ^ scale`. -/
structure Decimal where
  negative : Bool
  digits : Nat
  scale : Nat
  deriving DecidableEq, Repr

/-- Reads the longest run of decimal digits, continuing the value `acc`;
returns the value, the number of digits read and the text left. -/
def readDigits (acc : Nat) : Str → Nat × Nat × Str
  | [] => (acc, 0, [])
  | c :: cs =>
    if isDigit c then
      let r := readDigits (10 * acc + (c.toNat - 48)) cs
      (r.1, r.2.1 + 1, r.2.2)
    else (acc, 0, c :: cs)

/-- The conversion `std::stof(s)` on texts over sign, digits and radix point
(the only characters a capture of `[-\d\.]+` holds, so the exponent, hexadecimal,
`inf` and `nan` forms of `strtof` cannot arise): leading white space is skipped,
then the longest prefix `sign? digits* (. digits*)?` with at least one digit is
converted and the rest of the text is ignored.  Without such a prefix the call
throws `std::invalid_argument`; when the C library flags the value with `ERANGE`
(the verdict `erange`, which depends on binary32 and on the platform) it throws
`std::out_of_range`. -/
def stof (erange : Decimal → Bool) (s : Str) : Except StofError Decimal :=
  let s := s.dropWhile isSpace
  let signed : Bool × Str :=
    match s with
    | '-' :: r => (true, r)
    | '+' :: r => (false, r)
    | _ => (false, s)
  let ip := readDigits 0 signed.2
  let fp : Nat × Nat × Str :=
    match ip.2.2 with
    | '.' :: r => readDigits ip.1 r
    | _ => (ip.1, 0, ip.2.2)
  if ip.2.1 + fp.2.1 = 0 then .error .invalid_argument
  else
    let d : Decimal := ⟨signed.1, fp.1, fp.2.1⟩
    if erange d then .error .out_of_range else .ok d

/-- A sample `ERANGE` verdict: overflow of binary32 under round-to-nearest,
that is a magnitude of at least `2^128 - 2^103`. -/
def binary32Overflow (d : Decimal) : Bool :=
  decide ((2 ^ 128 - 2 ^ 103) * 10 ^ d.scale ≤ d.digits)

/-! ## Scene objects -/

/-- One operation composed into a model matrix. -/
inductive Transform where
  | translate (x y z : Decimal)
  | rotate (angle x y z : Decimal)
  | scale (x y z : Decimal)
  deriving DecidableEq, Repr

/-- Modelled from the spec: the class `GameObject` of `gameObject.hpp`, which is
not among the sources.  A scene object has a name, the path of its model, the
texture flip flag, and a model matrix that is the identity composed with the
operations received, in the order received (kept here as that sequence, oldest
first).  The shader and registry references passed at construction are opaque
and construction does not insert into the registry. -/
structure GameObject where
  name : Str
  modelPath : Str
  flipTexturesVertically : Bool
  modelMatrix : List Transform
  deriving DecidableEq, Repr

/-- Modelled from the spec: construction yields an object with the identity transform. -/
def GameObject.create (name modelPath : Str) (flipTexturesVertically : Bool) : GameObject :=
  ⟨name, modelPath, flipTexturesVertically, []⟩

/-- Modelled from the spec: `getName()` is a pure accessor. -/
def GameObject.getName (o : GameObject) : Str := o.name

/-- Modelled from the spec: `modelMatrixTranslate` composes a translation into the matrix. -/
def GameObject.modelMatrixTranslate (o : GameObject) (x y z : Decimal) : GameObject :=
  { o with modelMatrix := o.modelMatrix ++ [.translate x y z] }

/-- Modelled from the spec: `modelMatrixRotate` composes a rotation into the matrix. -/
def GameObject.modelMatrixRotate (o : GameObject) (angle x y z : Decimal) : GameObject :=
  { o with modelMatrix := o.modelMatrix ++ [.rotate angle x y z] }

/-- Modelled from the spec: `modelMatrixScale` composes a scale into the matrix. -/
def GameObject.modelMatrixScale (o : GameObject) (x y z : Decimal) : GameObject :=
  { o with modelMatrix := o.modelMatrix ++ [.scale x y z] }

/-- Applies `f` to the element at index `i`, as a call through `*it` does. -/
def modifyAt {α : Type} (f : α → α) : Nat → List α → List α
  | _, [] => []
  | 0, x :: xs => f x :: xs
  | i + 1, x :: xs => x :: modifyAt f i xs

/-! ## Program state -/

/-- The lines written to `std::cout`. -/
inductive Message where
  /-- The line `Format d'entree invalide.` -/
  | invalidFormat
  /-- The line `GameObject '<name>' non trouve.` -/
  | notFound (name : Str)
  /-- The line `Translation appliquee: x=.., y=.., z=..` -/
  | translationApplied (x y z : Decimal)
  /-- The line `Rotation appliquee: angle=.., x=.., y=.., z=..` -/
  | rotationApplied (angle x y z : Decimal)
  /-- The line `Mise a l'echelle appliquee: x=.., y=.., z=..` -/
  | scaleApplied (x y z : Decimal)
  /-- The line `Aucune transformation appliquee.` -/
  | noTransformation
  /-- The three lines of `Menu principal :` -/
  | mainMenu
  /-- The prompt `Pour creer un nouveau GameObject :` -/
  | creationPrompt
  /-- The prompt `Pour modifier un gameObject :` -/
  | transformPrompt
  /-- The lines `GameObject '<name>' cree.`, the path and the flip flag -/
  | created (name path : Str) (flip : Bool)
  /-- The line `Entree invalide.` -/
  | invalidEntry
  deriving DecidableEq, Repr

/-- The globals that the command code reads and writes, with the console.
`uncaught` holds an exception that left `std::stof`: nothing in the program
catches it, so execution stops there. -/
structure Program where
  gameObjects : List GameObject
  graveAccentKeyPressed : Bool
  stdin : List Str
  stdout : List Message
  uncaught : Option StofError
  deriving DecidableEq, Repr

/-- Writes one line to `std::cout`. -/
def Program.print (p : Program) (m : Message) : Program :=
  { p with stdout := p.stdout ++ [m] }

/-- An exception leaves the current function. -/
def Program.throw (p : Program) (e : StofError) : Program :=
  { p with uncaught := some e }

/-! ## `applyTransformations` -/

/-- The call `s.find(c)`: the offset of the first `c`, or `none` for `npos`. -/
def find (c : Char) : Str → Option Nat
  | [] => none
  | x :: xs => if x = c then some 0 else (find c xs).map (· + 1)

/-- Lines 102-106: the body run on each match of `translatePattern`; `it` is the
index of the object found.  The three conversions run left to right, before
the object is touched. -/
def translateFunc (erange : Decimal → Bool) (it : Nat) (m : Match) (p : Program) : Program :=
  match stof erange (m.str 1) with
  | .error e => p.throw e
  | .ok x =>
    match stof erange (m.str 2) with
    | .error e => p.throw e
    | .ok y =>
      match stof erange (m.str 3) with
      | .error e => p.throw e
      | .ok z =>
        Program.print
          { p with gameObjects := modifyAt (fun o => o.modelMatrixTranslate x y z) it p.gameObjects }
          (.translationApplied x y z)

/-- Lines 109-113: the body run on each match of `rotatePattern`. -/
def rotateFunc (erange : Decimal → Bool) (it : Nat) (m : Match) (p : Program) : Program :=
  match stof erange (m.str 1) with
  | .error e => p.throw e
  | .ok angle =>
    match stof erange (m.str 2) with
    | .error e => p.throw e
    | .ok x =>
      match stof erange (m.str 3) with
      | .error e => p.throw e
      | .ok y =>
        match stof erange (m.str 4) with
        | .error e => p.throw e
        | .ok z =>
          Program.print
            { p with
              gameObjects := modifyAt (fun o => o.modelMatrixRotate angle x y z) it p.gameObjects }
            (.rotationApplied angle x y z)

/-- Lines 116-120: the body run on each match of `scalePattern`. -/
def scaleFunc (erange : Decimal → Bool) (it : Nat) (m : Match) (p : Program) : Program :=
  match stof erange (m.str 1) with
  | .error e => p.throw e
  | .ok x =>
    match stof erange (m.str 2) with
    | .error e => p.throw e
    | .ok y =>
      match stof erange (m.str 3) with
      | .error e => p.throw e
      | .ok z =>
        Program.print
          { p with gameObjects := modifyAt (fun o => o.modelMatrixScale x y z) it p.gameObjects }
          (.scaleApplied x y z)

/-- Lines 93-98: the `while` loop of the lambda `apply`, with the local
`transformationApplied` next to the program state.  Each iteration searches from
`searchStart`, runs `transformFunc` on the match and continues after the match.
The loop is bounded by `fuel`; `none` means that the bound was reached. -/
def applyLoop (pattern : Regex) (transformationInput : Str)
    (transformFunc : Match → Program → Program) :
    Nat → Nat → Program × Bool → Option (Program × Bool)
  | 0, _, _ => none
  | fuel + 1, searchStart, (p, transformationApplied) =>
    match regex_search transformationInput searchStart pattern with
    | none => some (p, transformationApplied)
    | some m =>
      if (transformFunc m p).uncaught.isSome then some (transformFunc m p, true)
      else applyLoop pattern transformationInput transformFunc fuel m.stop (transformFunc m p, true)

/-- Lines 89-99: the lambda `apply`; the search starts at `cbegin()`. -/
def apply (pattern : Regex) (transformationInput : Str)
    (transformFunc : Match → Program → Program) (s : Program × Bool) : Option (Program × Bool) :=
  applyLoop pattern transformationInput transformFunc (transformationInput.length + 1) 0 s

/-- Lines 66-73: the name is the text before the first space character and the
transformations are the text after it; `none` when the line has no space. -/
def splitInput (input : Str) : Option (Str × Str) :=
  match find ' ' input with
  | none => none
  | some firstSpace => some (input.take firstSpace, input.drop (firstSpace + 1))

/-- Lines 75-125: the lookup of the object and the three passes over the
transformations.  The result is `none` only if one of the loops does not end. -/
def applyTo (erange : Decimal → Bool) (gameObjectName transformations : Str) (p : Program) :
    Option Program :=
  let it := p.gameObjects.findIdx (fun obj => obj.getName == gameObjectName)
  if it = p.gameObjects.length then some (p.print (.notFound gameObjectName))
  else
    match apply translatePattern transformations (translateFunc erange it) (p, false) with
    | none => none
    | some s₁ =>
      if s₁.1.uncaught.isSome then some s₁.1
      else
        match apply rotatePattern transformations (rotateFunc erange it) s₁ with
        | none => none
        | some s₂ =>
          if s₂.1.uncaught.isSome then some s₂.1
          else
            match apply scalePattern transformations (scaleFunc erange it) s₂ with
            | none => none
            | some s₃ =>
              if s₃.1.uncaught.isSome then some s₃.1
              else if !s₃.2 then some (s₃.1.print .noTransformation)
              else some s₃.1

/-- Lines 63-126. -/
def applyTransformations (erange : Decimal → Bool) (input : Str) (p : Program) : Option Program :=
  match splitInput input with
  | none => some (p.print .invalidFormat)
  | some (gameObjectName, transformations) => applyTo erange gameObjectName transformations p

/-! ## `processInput` -/

/-- What `glfwGetKey` returns: `GLFW_RELEASE` or `GLFW_PRESS`. -/
inductive KeyState where
  | release
  | press
  deriving DecidableEq, Repr

/-- The call `std::getline(std::cin, line)`; at the end of the input the line is empty. -/
def getline (p : Program) : Str × Program :=
  match p.stdin with
  | [] => ([], p)
  | l :: ls => (l, { p with stdin := ls })

/-- The call `std::stoi`, reached only with the text `1` or `2`. -/
def stoi (s : Str) : Nat := s.foldl (fun n c => 10 * n + (c.toNat - 48)) 0

/-- Lines 193-209: the creation branch, run on the line read. -/
def creationBranch (userInput : Str) (p : Program) : Program :=
  match regex_search userInput 0 gameObjectCreationPattern with
  | some m =>
    let gameObjectName := m.str 1
    let objectPath := m.str 2
    let flipTextureVertically : Bool := m.str 3 == ['1']
    let p := p.print (.created gameObjectName objectPath flipTextureVertically)
    { p with
      gameObjects :=
        p.gameObjects ++ [GameObject.create gameObjectName objectPath flipTextureVertically] }
  | none => p.print .invalidFormat

/-- Lines 163-231: the menu branch of `processInput`, the key being the state of
`GLFW_KEY_GRAVE_ACCENT` in this poll.  (The camera and cursor keys handled
before it touch none of the state kept here.) -/
def processInput (erange : Decimal → Bool) (key : KeyState) (p : Program) : Option Program :=
  if key = .press && !p.graveAccentKeyPressed then
    let p := { p with graveAccentKeyPressed := true }
    let p := p.print .mainMenu
    let choice := (getline p).1
    let p := (getline p).2
    if choice = ['1'] || choice = ['2'] then
      let choiceInt := stoi choice
      if choiceInt = 1 then
        let p := p.print .creationPrompt
        some (creationBranch (getline p).1 (getline p).2)
      else if choiceInt = 2 then
        let p := p.print .transformPrompt
        applyTransformations erange (getline p).1 (getline p).2
      else some p
    else some (p.print .invalidEntry)
  else if key = .release then some { p with graveAccentKeyPressed := false }
  else some p

/-- The control skeleton of lines 164-231 over the flag and the key state of the
poll: the new value of `graveAccentKeyPressed`, and whether the menu (one
command-read cycle) was entered. -/
def menuStep (graveAccentKeyPressed : Bool) (key : KeyState) : Bool × Bool :=
  if key = .press && !graveAccentKeyPressed then (true, true)
  else if key = .release then (false, false)
  else (graveAccentKeyPressed, false)

/-- The polled frames in order: for each frame, whether a command-read cycle started. -/
def runFrames : Bool → List KeyState → List Bool
  | _, [] => []
  | flag, key :: keys => (menuStep flag key).2 :: runFrames (menuStep flag key).1 keys


/-! ## Vocabulary of the statements -/

/-- A non-empty run of characters of the class `p`. -/
def isRun (p : Char → Bool) (l : Str) : Bool := !l.isEmpty && l.all p

/-- The text does not begin with a character of the class `p`: a run of `p`
that ends right before it cannot be extended. -/
def stopsRun (p : Char → Bool) : Str → Bool
  | [] => true
  | c :: _ => !p c

/-- The text of the arguments of an occurrence: for each argument the white
space before it and the argument itself. -/
def argsText : List (Str × Str) → Str
  | [] => []
  | q :: qs => q.1 ++ q.2 ++ argsText qs

/-- The text of an occurrence of a sub-pattern: the tag letter and the arguments. -/
def occurrenceText (tag : Char) (args : List (Str × Str)) : Str := tag :: argsText args

/-- An occurrence with `n` arguments that is followed by `tail`: every argument
is a non-empty run of `[-\d\.]` after a non-empty run of white space, and the
last argument is not continued by `tail`. -/
def isOccurrence (n : Nat) (args : List (Str × Str)) (tail : Str) : Bool :=
  args.length == n && args.all (fun q => isRun isSpace q.1 && isRun isNumeric q.2) &&
    stopsRun isNumeric tail

/-- The sub-matches of an occurrence: argument `k` is sub-match `k`, latest first. -/
def argCaps : Nat → List (Str × Str) → List (Nat × Str) → List (Nat × Str)
  | _, [], acc => acc
  | k, q :: qs, acc => argCaps (k + 1) qs ((k, q.2) :: acc)

/-- The piece `\s+([-\d\.]+)` of a pattern, with capture group `n`, followed by `k`. -/
def argStep (first n : Nat) (k : MState → Option MState) (st : MState) : Option MState :=
  matchHere first (.plus .space) (fun s => matchHere first (numberGroup n) k s) st

/-- The shape shared by `translatePattern` and `scalePattern`: a tag and three arguments. -/
def tagged3 (tag : Char) : Regex :=
  Regex.seq (.atom (.lit tag)) [.plus .space, numberGroup 1, .plus .space, numberGroup 2,
    .plus .space, numberGroup 3]

/-- The shape of `rotatePattern`: a tag and four arguments. -/
def tagged4 (tag : Char) : Regex :=
  Regex.seq (.atom (.lit tag)) [.plus .space, numberGroup 1, .plus .space, numberGroup 2,
    .plus .space, numberGroup 3, .plus .space, numberGroup 4]

/-- An occurrence `tag args` with `n` arguments begins at offset `i` of `text`. -/
def OccursAt (tag : Char) (n : Nat) (text : Str) (i : Nat) (args : List (Str × Str)) : Prop :=
  ∃ tail, text.drop i = occurrenceText tag args ++ tail ∧ isOccurrence n args tail = true

/-- The matches of the expression at a position are the occurrences `tag args`
with `n` arguments that begin there. -/
def HasShape (re : Regex) (tag : Char) (n : Nat) : Prop :=
  ∀ (first pos : Nat) (s : Str) (res : MState),
    matchHere first re some ⟨pos, s, []⟩ = some res ↔
      ∃ args tail, s = occurrenceText tag args ++ tail ∧ isOccurrence n args tail = true ∧
        res = ⟨pos + (occurrenceText tag args).length, tail, argCaps 1 args []⟩

/-- The successive matches that the loop of `apply` visits: every search starts
where the previous match ends. -/
def scanLoop (pattern : Regex) (text : Str) : Nat → Nat → List Match
  | 0, _ => []
  | fuel + 1, searchStart =>
    match regex_search text searchStart pattern with
    | none => []
    | some m => m :: scanLoop pattern text fuel m.stop

/-- The matches of `pattern` in `text` that `apply` visits, from left to right. -/
def scan (pattern : Regex) (text : Str) : List Match :=
  scanLoop pattern text (text.length + 1) 0

/-- The body of a loop run on the matches in order, up to the first exception. -/
def runMatches (f : Match → Program → Program) : List Match → Program → Program
  | [], p => p
  | m :: ms, p => if (f m p).uncaught.isSome then f m p else runMatches f ms (f m p)

/-- The call of the object's operation that a `Transform` stands for. -/
def Transform.applyTo : Transform → GameObject → GameObject
  | .translate x y z, o => o.modelMatrixTranslate x y z
  | .rotate angle x y z, o => o.modelMatrixRotate angle x y z
  | .scale x y z, o => o.modelMatrixScale x y z

/-- The line printed after an operation. -/
def Transform.report : Transform → Message
  | .translate x y z => .translationApplied x y z
  | .rotate angle x y z => .rotationApplied angle x y z
  | .scale x y z => .scaleApplied x y z

/-- One operation on the object at index `it`, and its report. -/
def perform (it : Nat) (op : Transform) (p : Program) : Program :=
  Program.print { p with gameObjects := modifyAt op.applyTo it p.gameObjects } op.report

/-- A sequence of operations on the object at index `it`, each with its report. -/
def performAll (it : Nat) : List Transform → Program → Program
  | [], p => p
  | op :: ops, p => performAll it ops (perform it op p)

/-- The match stands for the translation `op`: its three sub-matches convert to the arguments. -/
def IsTranslation (erange : Decimal → Bool) (m : Match) (op : Transform) : Prop :=
  ∃ x y z, stof erange (m.str 1) = .ok x ∧ stof erange (m.str 2) = .ok y ∧
    stof erange (m.str 3) = .ok z ∧ op = .translate x y z

/-- The match stands for the rotation `op`: its four sub-matches convert to the arguments. -/
def IsRotation (erange : Decimal → Bool) (m : Match) (op : Transform) : Prop :=
  ∃ angle x y z, stof erange (m.str 1) = .ok angle ∧ stof erange (m.str 2) = .ok x ∧
    stof erange (m.str 3) = .ok y ∧ stof erange (m.str 4) = .ok z ∧ op = .rotate angle x y z

/-- The match stands for the scale `op`: its three sub-matches convert to the arguments. -/
def IsScale (erange : Decimal → Bool) (m : Match) (op : Transform) : Prop :=
  ∃ x y z, stof erange (m.str 1) = .ok x ∧ stof erange (m.str 2) = .ok y ∧
    stof erange (m.str 3) = .ok z ∧ op = .scale x y z

/-- A loop body that, on each match, either throws before touching anything or
performs one operation that the match stands for on the object at index `it`. -/
def IsBody (it : Nat) (rel : Match → Transform → Prop) (f : Match → Program → Program) : Prop :=
  ∀ m p, (∃ e, f m p = p.throw e) ∨ (∃ op, rel m op ∧ f m p = perform it op p)

/-- Every match that a search for the pattern finds is non-empty, begins at or
after the start of the search and ends inside the text. -/
def Progresses (pattern : Regex) : Prop :=
  ∀ (text : Str) (s : Nat) (m : Match), regex_search text s pattern = some m →
    s ≤ m.start ∧ m.start < m.stop ∧ m.stop ≤ text.length

/-- The object with `ops` composed into its model matrix, in that order. -/
def GameObject.compose (ops : List Transform) (o : GameObject) : GameObject :=
  { o with modelMatrix := o.modelMatrix ++ ops }

/-- The class `\S` as a predicate. -/
def isNonSpace (c : Char) : Bool := !isSpace c

/-- The parts of a creation line `name w₁ path w₂ flag`: two non-empty tokens
free of white space, each followed by a non-empty run of white space, and a
flag that is the character `0` or `1`. -/
def isCreationLine (name w₁ path w₂ : Str) (flag : Char) : Bool :=
  isRun isNonSpace name && isRun isSpace w₁ && isRun isNonSpace path && isRun isSpace w₂ &&
    (flag == '0' || flag == '1')

/-- The line has the shape `<name> <path> <flag>`. -/
def CreationShape (line : Str) : Prop :=
  ∃ name w₁ path w₂ flag, line = name ++ w₁ ++ path ++ w₂ ++ [flag] ∧
    isCreationLine name w₁ path w₂ flag = true

/-- The piece `(\S+)\s+` of the creation pattern, with capture group `n`, followed by `k`. -/
def tokenStep (first n : Nat) (k : MState → Option MState) (st : MState) : Option MState :=
  matchHere first (.group n (.plus .nonSpace)) (fun s => matchHere first (.plus .space) k s) st

/-- The piece `(0|1)$` of the creation pattern. -/
def flagStep (first : Nat) (st : MState) : Option MState :=
  matchHere first (.cat (.group 3 (.alt (.atom (.lit '0')) (.atom (.lit '1')))) .eol) some st

/-- A registry that already holds an object called `cube`, with an empty console. -/
def sampleCubeProgram : Program :=
  ⟨[GameObject.create "cube".toList "old.obj".toList false], true, [], [], none⟩

/-- The first white-space-delimited token of a line, in the words of the spec:
the maximal run of characters other than white space before the first white-space
character of any kind. -/
def firstToken (line : Str) : Str := line.takeWhile isNonSpace

/-- A registry with the one object `a`, an empty console and nothing thrown. -/
def sampleProgram : Program :=
  ⟨[GameObject.create "a".toList "a.obj".toList false], true, [], [], none⟩

/-- The decimal of a natural number. -/
def Decimal.ofNat (n : Nat) : Decimal := ⟨false, n, 0⟩

/-- No sub-pattern of the three occurs anywhere in the text. -/
def NoOccurrence (text : Str) : Prop :=
  (∀ j args, ¬ OccursAt 't' 3 text j args) ∧ (∀ j args, ¬ OccursAt 'r' 4 text j args) ∧
    (∀ j args, ¬ OccursAt 's' 3 text j args)

/-- The list `ms` holds the matches of repeated searches from offset `s` on:
each search starts where the previous match ended, and the search after the
last match finds nothing. -/
def SuccessiveMatches (pattern : Regex) (text : Str) : Nat → List Match → Prop
  | s, [] => regex_search text s pattern = none
  | s, m :: ms => regex_search text s pattern = some m ∧ SuccessiveMatches pattern text m.stop ms

/-- The matches lie from left to right in the text without overlap. -/
def LeftToRight (ms : List Match) : Prop := ms.Pairwise (fun a b => a.stop ≤ b.start)

theorem isNumeric_of_isSpace {c : Char} (h : isSpace c = true) : isNumeric c = false := by
  have h1 : (c == '-') = false := by
    apply beq_false_of_ne
    rintro rfl
    revert h; decide
  have h2 : (c == '.') = false := by
    apply beq_false_of_ne
    rintro rfl
    revert h; decide
  have h3 : isDigit c = false := by
    simp only [isSpace, isDigit, Bool.or_eq_true, Bool.and_eq_true, beq_iff_eq,
      decide_eq_true_eq] at h ⊢
    rw [Bool.eq_false_iff]
    simp only [ne_eq, Bool.and_eq_true, decide_eq_true_eq]
    omega
  simp [isNumeric, h1, h2, h3]

theorem isSpace_of_isNumeric {c : Char} (h : isNumeric c = true) : isSpace c = false := by
  cases hs : isSpace c
  · rfl
  · rw [isNumeric_of_isSpace hs] at h; cases h

theorem isRun_cons {p : Char → Bool} {c : Char} {l : Str} :
    isRun p (c :: l) = (p c && l.all p) := by
  simp [isRun]

theorem isRun_iff {p : Char → Bool} {l : Str} :
    isRun p l = true ↔ l ≠ [] ∧ ∀ c ∈ l, p c = true := by
  cases l <;> simp [isRun]

/-! ## The greedy loop -/

theorem plusLoop_sound {a : Atom} {k : MState → Option MState} {caps : List (Nat × Str)} :
    ∀ (s : Str) (pos : Nat) {r : MState}, plusLoop a k caps pos s = some r →
      ∃ run tail, s = run ++ tail ∧ isRun a.test run = true ∧
        k ⟨pos + run.length, tail, caps⟩ = some r ∧
        (∀ c cs, tail = c :: cs → a.test c = true →
          plusLoop a k caps (pos + run.length) tail = none) := by
  intro s
  induction s with
  | nil => intro pos r h; simp [plusLoop] at h
  | cons c cs ih =>
    intro pos r h
    rw [plusLoop] at h
    by_cases hc : a.test c = true
    · rw [if_pos hc] at h
      cases hrec : plusLoop a k caps (pos + 1) cs with
      | some r' =>
        rw [hrec] at h
        obtain ⟨run, tail, hs, hrun, hk, hmax⟩ := ih (pos + 1) hrec
        refine ⟨c :: run, tail, by simp [hs], ?_, ?_, ?_⟩
        · rw [isRun_iff] at hrun ⊢
          refine ⟨by simp, ?_⟩
          intro x hx
          rcases List.mem_cons.1 hx with rfl | hx
          · exact hc
          · exact hrun.2 x hx
        · have : pos + (c :: run).length = pos + 1 + run.length := by simp; omega
          rw [this, hk]; exact h
        · intro x xs hx hxa
          have : pos + (c :: run).length = pos + 1 + run.length := by simp; omega
          rw [this]; exact hmax x xs hx hxa
      | none =>
        rw [hrec] at h
        refine ⟨[c], cs, rfl, by simp [isRun, hc], h, ?_⟩
        intro x xs _ _
        exact hrec
    · rw [if_neg hc] at h; cases h

theorem plusLoop_stops {a : Atom} {k : MState → Option MState} {caps : List (Nat × Str)}
    {tail : Str} (h : stopsRun a.test tail = true) (pos : Nat) :
    plusLoop a k caps pos tail = none := by
  cases tail with
  | nil => rfl
  | cons c cs =>
    simp only [stopsRun, Bool.not_eq_true'] at h
    simp [plusLoop, h]

theorem plusLoop_run_some {a : Atom} {k : MState → Option MState} {caps : List (Nat × Str)} :
    ∀ (run tail : Str) (pos : Nat) (r : MState), isRun a.test run = true →
      stopsRun a.test tail = true → k ⟨pos + run.length, tail, caps⟩ = some r →
      plusLoop a k caps pos (run ++ tail) = some r := by
  intro run
  induction run with
  | nil => intro tail pos r h; simp [isRun] at h
  | cons c cs ih =>
    intro tail pos r hrun hstop hk
    rw [isRun_cons, Bool.and_eq_true] at hrun
    rw [List.cons_append, plusLoop, if_pos hrun.1]
    cases cs with
    | nil =>
      simp only [List.nil_append]
      rw [plusLoop_stops hstop]
      simpa using hk
    | cons d ds =>
      have hds : isRun a.test (d :: ds) = true := by
        rw [isRun_iff]; refine ⟨by simp, ?_⟩
        intro x hx; exact List.all_eq_true.1 hrun.2 x hx
      have e : pos + 1 + (d :: ds).length = pos + (c :: d :: ds).length := by simp; omega
      rw [ih tail (pos + 1) r hds hstop (by rw [e]; exact hk)]

theorem plusLoop_total {a : Atom} {k : MState → Option MState} {caps : List (Nat × Str)}
    (hk : ∀ st, k st ≠ none) :
    ∀ (cs : Str) (c : Char) (pos : Nat), a.test c = true → plusLoop a k caps pos (c :: cs) ≠ none := by
  intro cs c pos hc h
  rw [plusLoop, if_pos hc] at h
  cases hrec : plusLoop a k caps (pos + 1) cs with
  | some r => rw [hrec] at h; cases h
  | none => rw [hrec] at h; exact hk _ h

/-! ## One argument of a sub-pattern -/

theorem stopsRun_space_of_numeric {a tail : Str} (ha : isRun isNumeric a = true) :
    stopsRun isSpace (a ++ tail) = true := by
  cases a with
  | nil => simp [isRun] at ha
  | cons c cs =>
    rw [isRun_cons, Bool.and_eq_true] at ha
    simp [stopsRun, isSpace_of_isNumeric ha.1]

theorem stopsRun_numeric_of_space {w tail : Str} (hw : isRun isSpace w = true) :
    stopsRun isNumeric (w ++ tail) = true := by
  cases w with
  | nil => simp [isRun] at hw
  | cons c cs =>
    rw [isRun_cons, Bool.and_eq_true] at hw
    simp [stopsRun, isNumeric_of_isSpace hw.1]

theorem argStep_sound {first n : Nat} {k : MState → Option MState} {st res : MState}
    (h : argStep first n k st = some res) :
    ∃ w a tail, st.rest = w ++ a ++ tail ∧ isRun isSpace w = true ∧ isRun isNumeric a = true ∧
      k ⟨st.pos + w.length + a.length, tail, (n, a) :: st.caps⟩ = some res ∧
      ((∀ s, k s ≠ none) → stopsRun isNumeric tail = true) := by
  unfold argStep at h
  simp only [matchHere, numberGroup] at h
  obtain ⟨w, t₁, hw, hwrun, hk₁, -⟩ := plusLoop_sound _ _ h
  dsimp only at hk₁
  obtain ⟨a, tail, ha, harun, hk₂, hmax⟩ := plusLoop_sound _ _ hk₁
  dsimp only at ha hk₂ hmax
  refine ⟨w, a, tail, by rw [hw, ha, List.append_assoc], hwrun, harun, ?_, ?_⟩
  · rw [ha] at hk₂
    have e : st.pos + w.length + a.length - (st.pos + w.length) = a.length := by omega
    rw [e, List.take_left'] at hk₂
    · exact hk₂
    · rfl
  · intro htot
    cases tail with
    | nil => rfl
    | cons c cs =>
      cases hc : isNumeric c with
      | false => simp [stopsRun, hc]
      | true =>
        exfalso
        refine plusLoop_total ?_ cs c _ (by simpa [Atom.test] using hc) (hmax c cs rfl (by simpa [Atom.test] using hc))
        intro s; exact htot _

theorem argStep_complete {first n : Nat} {k : MState → Option MState} {st res : MState}
    (w a tail : Str) (hrest : st.rest = w ++ a ++ tail) (hw : isRun isSpace w = true)
    (ha : isRun isNumeric a = true) (hstop : stopsRun isNumeric tail = true)
    (hk : k ⟨st.pos + w.length + a.length, tail, (n, a) :: st.caps⟩ = some res) :
    argStep first n k st = some res := by
  unfold argStep
  simp only [matchHere, numberGroup]
  rw [hrest, List.append_assoc]
  apply plusLoop_run_some (a := .space) w (a ++ tail) st.pos res hw (stopsRun_space_of_numeric ha)
  simp only
  apply plusLoop_run_some (a := .numeric) a tail _ res ha hstop
  simp only
  have e : st.pos + w.length + a.length - (st.pos + w.length) = a.length := by omega
  rw [e, List.take_left']
  · exact hk
  · rfl

/-! ## The shape of a match of a transformation pattern -/

theorem matchHere_tagged3 (first : Nat) (tag : Char) (k : MState → Option MState) (st : MState) :
    matchHere first (tagged3 tag) k st =
      match st.rest with
      | [] => none
      | c :: cs =>
        if c == tag then
          argStep first 1 (fun s => argStep first 2 (fun s => argStep first 3 k s) s)
            ⟨st.pos + 1, cs, st.caps⟩
        else none := rfl

theorem matchHere_tagged4 (first : Nat) (tag : Char) (k : MState → Option MState) (st : MState) :
    matchHere first (tagged4 tag) k st =
      match st.rest with
      | [] => none
      | c :: cs =>
        if c == tag then
          argStep first 1
            (fun s => argStep first 2 (fun s => argStep first 3 (fun s => argStep first 4 k s) s) s)
            ⟨st.pos + 1, cs, st.caps⟩
        else none := rfl

theorem tagged3_sound {first : Nat} {tag : Char} {pos : Nat} {s : Str} {res : MState}
    (h : matchHere first (tagged3 tag) some ⟨pos, s, []⟩ = some res) :
    ∃ args tail, s = occurrenceText tag args ++ tail ∧ isOccurrence 3 args tail = true ∧
      res = ⟨pos + (occurrenceText tag args).length, tail, argCaps 1 args []⟩ := by
  rw [matchHere_tagged3] at h
  cases s with
  | nil => simp at h
  | cons c cs =>
    dsimp only at h
    by_cases hc : (c == tag) = true
    · rw [if_pos hc] at h
      obtain ⟨w₁, a₁, t₁, e₁, hw₁, ha₁, h₁, -⟩ := argStep_sound h
      obtain ⟨w₂, a₂, t₂, e₂, hw₂, ha₂, h₂, -⟩ := argStep_sound h₁
      obtain ⟨w₃, a₃, t₃, e₃, hw₃, ha₃, h₃, hstop⟩ := argStep_sound h₂
      dsimp only at e₁ e₂ e₃ h₃
      refine ⟨[(w₁, a₁), (w₂, a₂), (w₃, a₃)], t₃, ?_, ?_, ?_⟩
      · rw [beq_iff_eq] at hc
        simp [occurrenceText, argsText, hc, e₁, e₂, e₃]
      · simp [isOccurrence, hw₁, ha₁, hw₂, ha₂, hw₃, ha₃, hstop (by simp)]
      · have := (Option.some.inj h₃).symm
        rw [this]
        simp only [occurrenceText, argsText, argCaps, List.length_cons, List.length_append,
          List.length_nil, MState.mk.injEq, and_true, true_and]
        omega
    · rw [if_neg hc] at h; cases h

theorem tagged3_complete {first : Nat} {tag : Char} {pos : Nat} {args : List (Str × Str)}
    {tail : Str} (hocc : isOccurrence 3 args tail = true) :
    matchHere first (tagged3 tag) some ⟨pos, occurrenceText tag args ++ tail, []⟩ =
      some ⟨pos + (occurrenceText tag args).length, tail, argCaps 1 args []⟩ := by
  simp only [isOccurrence, Bool.and_eq_true, beq_iff_eq] at hocc
  obtain ⟨⟨hlen, hall⟩, hstop⟩ := hocc
  match args, hlen with
  | [(w₁, a₁), (w₂, a₂), (w₃, a₃)], _ =>
    simp only [List.all_cons, List.all_nil, Bool.and_true, Bool.and_eq_true] at hall
    obtain ⟨⟨hw₁, ha₁⟩, ⟨hw₂, ha₂⟩, hw₃, ha₃⟩ := hall
    rw [matchHere_tagged3]
    simp only [occurrenceText, argsText, List.cons_append, beq_self_eq_true, if_true,
      List.append_nil]
    apply argStep_complete w₁ a₁ (w₂ ++ a₂ ++ (w₃ ++ a₃) ++ tail)
      (by simp) hw₁ ha₁
      (by rw [List.append_assoc, List.append_assoc]; exact stopsRun_numeric_of_space hw₂)
    apply argStep_complete w₂ a₂ (w₃ ++ a₃ ++ tail)
      (by simp) hw₂ ha₂ (by rw [List.append_assoc]; exact stopsRun_numeric_of_space hw₃)
    apply argStep_complete w₃ a₃ tail (by simp) hw₃ ha₃ hstop
    simp only [argCaps, List.length_cons, List.length_append, Option.some.injEq,
      MState.mk.injEq, and_true, true_and]
    omega

theorem tagged4_sound {first : Nat} {tag : Char} {pos : Nat} {s : Str} {res : MState}
    (h : matchHere first (tagged4 tag) some ⟨pos, s, []⟩ = some res) :
    ∃ args tail, s = occurrenceText tag args ++ tail ∧ isOccurrence 4 args tail = true ∧
      res = ⟨pos + (occurrenceText tag args).length, tail, argCaps 1 args []⟩ := by
  rw [matchHere_tagged4] at h
  cases s with
  | nil => simp at h
  | cons c cs =>
    dsimp only at h
    by_cases hc : (c == tag) = true
    · rw [if_pos hc] at h
      obtain ⟨w₁, a₁, t₁, e₁, hw₁, ha₁, h₁, -⟩ := argStep_sound h
      obtain ⟨w₂, a₂, t₂, e₂, hw₂, ha₂, h₂, -⟩ := argStep_sound h₁
      obtain ⟨w₃, a₃, t₃, e₃, hw₃, ha₃, h₃, -⟩ := argStep_sound h₂
      obtain ⟨w₄, a₄, t₄, e₄, hw₄, ha₄, h₄, hstop⟩ := argStep_sound h₃
      dsimp only at e₁ e₂ e₃ e₄ h₄
      refine ⟨[(w₁, a₁), (w₂, a₂), (w₃, a₃), (w₄, a₄)], t₄, ?_, ?_, ?_⟩
      · rw [beq_iff_eq] at hc
        simp [occurrenceText, argsText, hc, e₁, e₂, e₃, e₄]
      · simp [isOccurrence, hw₁, ha₁, hw₂, ha₂, hw₃, ha₃, hw₄, ha₄, hstop (by simp)]
      · have := (Option.some.inj h₄).symm
        rw [this]
        simp only [occurrenceText, argsText, argCaps, List.length_cons, List.length_append,
          List.length_nil, MState.mk.injEq, and_true, true_and]
        omega
    · rw [if_neg hc] at h; cases h

theorem tagged4_complete {first : Nat} {tag : Char} {pos : Nat} {args : List (Str × Str)}
    {tail : Str} (hocc : isOccurrence 4 args tail = true) :
    matchHere first (tagged4 tag) some ⟨pos, occurrenceText tag args ++ tail, []⟩ =
      some ⟨pos + (occurrenceText tag args).length, tail, argCaps 1 args []⟩ := by
  simp only [isOccurrence, Bool.and_eq_true, beq_iff_eq] at hocc
  obtain ⟨⟨hlen, hall⟩, hstop⟩ := hocc
  match args, hlen with
  | [(w₁, a₁), (w₂, a₂), (w₃, a₃), (w₄, a₄)], _ =>
    simp only [List.all_cons, List.all_nil, Bool.and_true, Bool.and_eq_true] at hall
    obtain ⟨⟨hw₁, ha₁⟩, ⟨hw₂, ha₂⟩, ⟨hw₃, ha₃⟩, hw₄, ha₄⟩ := hall
    rw [matchHere_tagged4]
    simp only [occurrenceText, argsText, List.cons_append, beq_self_eq_true, if_true,
      List.append_nil]
    apply argStep_complete w₁ a₁ (w₂ ++ a₂ ++ (w₃ ++ a₃ ++ (w₄ ++ a₄)) ++ tail) (by simp) hw₁ ha₁
      (by rw [List.append_assoc, List.append_assoc]; exact stopsRun_numeric_of_space hw₂)
    apply argStep_complete w₂ a₂ (w₃ ++ a₃ ++ (w₄ ++ a₄) ++ tail)
      (by simp) hw₂ ha₂
      (by rw [List.append_assoc, List.append_assoc]; exact stopsRun_numeric_of_space hw₃)
    apply argStep_complete w₃ a₃ (w₄ ++ a₄ ++ tail)
      (by simp) hw₃ ha₃ (by rw [List.append_assoc]; exact stopsRun_numeric_of_space hw₄)
    apply argStep_complete w₄ a₄ tail (by simp) hw₄ ha₄ hstop
    simp only [argCaps, List.length_cons, List.length_append, Option.some.injEq,
      MState.mk.injEq, and_true, true_and]
    omega

theorem hasShape_tagged3 (tag : Char) : HasShape (tagged3 tag) tag 3 := by
  intro first pos s res
  constructor
  · exact tagged3_sound
  · rintro ⟨args, tail, rfl, hocc, rfl⟩
    exact tagged3_complete hocc

theorem hasShape_tagged4 (tag : Char) : HasShape (tagged4 tag) tag 4 := by
  intro first pos s res
  constructor
  · exact tagged4_sound
  · rintro ⟨args, tail, rfl, hocc, rfl⟩
    exact tagged4_complete hocc

theorem hasShape_translate : HasShape translatePattern 't' 3 := hasShape_tagged3 't'

theorem hasShape_rotate : HasShape rotatePattern 'r' 4 := hasShape_tagged4 'r'

theorem hasShape_scale : HasShape scalePattern 's' 3 := hasShape_tagged3 's'

/-! ## The search -/

theorem searchFrom_some {re : Regex} {first : Nat} :
    ∀ (s : Str) (pos : Nat) {m : Match}, searchFrom re first pos s = some m →
      ∃ i st, i ≤ s.length ∧ m = ⟨pos + i, st.pos, st.caps⟩ ∧
        matchHere first re some ⟨pos + i, s.drop i, []⟩ = some st ∧
        ∀ j, j < i → matchHere first re some ⟨pos + j, s.drop j, []⟩ = none := by
  intro s
  induction s with
  | nil =>
    intro pos m h
    rw [searchFrom] at h
    cases hm : matchHere first re some ⟨pos, [], []⟩ with
    | none => rw [hm] at h; cases h
    | some st =>
      rw [hm] at h
      exact ⟨0, st, by simp, (Option.some.inj h).symm, by simpa using hm, by simp⟩
  | cons c cs ih =>
    intro pos m h
    rw [searchFrom] at h
    cases hm : matchHere first re some ⟨pos, c :: cs, []⟩ with
    | some st =>
      rw [hm] at h
      exact ⟨0, st, by simp, (Option.some.inj h).symm, by simpa using hm, by simp⟩
    | none =>
      rw [hm] at h
      obtain ⟨i, st, hi, hmeq, hst, hbefore⟩ := ih (pos + 1) h
      refine ⟨i + 1, st, by simp; omega, ?_, ?_, ?_⟩
      · rw [hmeq]; congr 1; omega
      · have : pos + (i + 1) = pos + 1 + i := by omega
        rw [this, List.drop_succ_cons]; exact hst
      · intro j hj
        cases j with
        | zero => simpa using hm
        | succ j =>
          have : pos + (j + 1) = pos + 1 + j := by omega
          rw [this, List.drop_succ_cons]
          exact hbefore j (by omega)

theorem searchFrom_none {re : Regex} {first : Nat} :
    ∀ (s : Str) (pos : Nat), searchFrom re first pos s = none →
      ∀ j, j ≤ s.length → matchHere first re some ⟨pos + j, s.drop j, []⟩ = none := by
  intro s
  induction s with
  | nil =>
    intro pos h j hj
    rw [searchFrom] at h
    cases hm : matchHere first re some ⟨pos, [], []⟩ with
    | none =>
      have : j = 0 := by simpa using hj
      subst this; simpa using hm
    | some st => rw [hm] at h; cases h
  | cons c cs ih =>
    intro pos h j hj
    rw [searchFrom] at h
    cases hm : matchHere first re some ⟨pos, c :: cs, []⟩ with
    | some st => rw [hm] at h; cases h
    | none =>
      rw [hm] at h
      cases j with
      | zero => simpa using hm
      | succ j =>
        have : pos + (j + 1) = pos + 1 + j := by omega
        rw [this, List.drop_succ_cons]
        exact ih (pos + 1) h j (by simpa using hj)

theorem searchFrom_complete {re : Regex} {first : Nat} :
    ∀ (s : Str) (pos i : Nat) (st : MState), i ≤ s.length →
      matchHere first re some ⟨pos + i, s.drop i, []⟩ = some st →
      (∀ j, j < i → matchHere first re some ⟨pos + j, s.drop j, []⟩ = none) →
      searchFrom re first pos s = some ⟨pos + i, st.pos, st.caps⟩ := by
  intro s
  induction s with
  | nil =>
    intro pos i st hi hst _
    have : i = 0 := by simpa using hi
    subst this
    rw [searchFrom]
    simp only [List.drop_nil, Nat.add_zero] at hst
    rw [hst]; rfl
  | cons c cs ih =>
    intro pos i st hi hst hbefore
    rw [searchFrom]
    cases i with
    | zero =>
      simp only [List.drop_zero, Nat.add_zero] at hst
      rw [hst]; rfl
    | succ i =>
      have h0 := hbefore 0 (by omega)
      simp only [List.drop_zero, Nat.add_zero] at h0
      rw [h0]
      have e : pos + (i + 1) = pos + 1 + i := by omega
      rw [e]
      apply ih (pos + 1) i st (by simpa using hi)
      · rw [← e]; simpa using hst
      · intro j hj
        have := hbefore (j + 1) (by omega)
        have e' : pos + (j + 1) = pos + 1 + j := by omega
        rw [e', List.drop_succ_cons] at this
        exact this

theorem OccursAt.lt_length {tag : Char} {n : Nat} {text : Str} {i : Nat}
    {args : List (Str × Str)} (h : OccursAt tag n text i args) :
    i + (occurrenceText tag args).length ≤ text.length ∧ 0 < (occurrenceText tag args).length := by
  obtain ⟨tail, htext, -⟩ := h
  have hl := congrArg List.length htext
  simp only [List.length_drop, List.length_append] at hl
  have hpos : 0 < (occurrenceText tag args).length := by simp [occurrenceText]
  exact ⟨by omega, hpos⟩

theorem regex_search_shape {re : Regex} {tag : Char} {n : Nat} (hre : HasShape re tag n)
    (text : Str) (s : Nat) (m : Match) :
    regex_search text s re = some m ↔
      ∃ args, s ≤ m.start ∧ OccursAt tag n text m.start args ∧
        m.stop = m.start + (occurrenceText tag args).length ∧ m.caps = argCaps 1 args [] ∧
        ∀ j args', s ≤ j → j < m.start → ¬ OccursAt tag n text j args' := by
  constructor
  · intro h
    obtain ⟨i, st, hi, hm, hst, hbefore⟩ := searchFrom_some _ _ h
    obtain ⟨args, tail, hdrop, hocc, hres⟩ := (hre _ _ _ _).1 hst
    rw [List.drop_drop] at hdrop
    refine ⟨args, hm ▸ Nat.le_add_right s i, ⟨tail, ?_, hocc⟩, ?_, ?_, ?_⟩
    · rw [hm]; dsimp only; rw [← hdrop]
    · rw [hm, hres]
    · rw [hm, hres]
    · intro j args' hsj hj hoc
      rw [hm] at hj
      dsimp only at hj
      obtain ⟨tail', hdrop', hocc'⟩ := hoc
      have hn := hbefore (j - s) (by omega)
      rw [List.drop_drop] at hn
      have e2 : s + (j - s) = j := by omega
      rw [e2, hdrop'] at hn
      have hsome := (hre s j (occurrenceText tag args' ++ tail') _).2 ⟨args', tail', rfl, hocc', rfl⟩
      rw [hn] at hsome
      cases hsome
  · rintro ⟨args, hs, hocc, hstop, hcaps, hbefore⟩
    have hlt := hocc.lt_length
    obtain ⟨tail, hdrop, hocc'⟩ := hocc
    unfold regex_search
    have key := @searchFrom_complete re s (text.drop s) s (m.start - s)
      ⟨m.start + (occurrenceText tag args).length, tail, argCaps 1 args []⟩
      (by simp; omega)
      (by
        rw [List.drop_drop]
        have e2 : s + (m.start - s) = m.start := by omega
        rw [e2, hdrop]
        exact (hre _ _ _ _).2 ⟨args, tail, rfl, hocc', rfl⟩)
      (by
        intro j hj
        rw [List.drop_drop]
        cases hm : matchHere s re some ⟨s + j, List.drop (s + j) text, []⟩ with
        | none => rfl
        | some st =>
          exfalso
          obtain ⟨args', tail', hd', ho', -⟩ := (hre _ _ _ _).1 hm
          refine hbefore (s + j) args' (by omega) (by omega) ⟨tail', ?_, ho'⟩
          rw [← hd'])
    rw [key]
    congr 1
    cases m
    simp only [Match.mk.injEq] at hstop hcaps hs ⊢
    refine ⟨by omega, hstop.symm, hcaps.symm⟩

theorem regex_search_none {re : Regex} {tag : Char} {n : Nat} (hre : HasShape re tag n)
    (text : Str) (s : Nat) :
    regex_search text s re = none ↔ ∀ j args, s ≤ j → ¬ OccursAt tag n text j args := by
  constructor
  · intro h j args hsj hocc
    have hlt := hocc.lt_length
    obtain ⟨tail, hdrop, hocc'⟩ := hocc
    have hn := searchFrom_none _ _ h (j - s) (by simp; omega)
    rw [List.drop_drop] at hn
    have e2 : s + (j - s) = j := by omega
    rw [e2, hdrop] at hn
    have hsome := (hre s j (occurrenceText tag args ++ tail) _).2 ⟨args, tail, rfl, hocc', rfl⟩
    rw [hn] at hsome
    cases hsome
  · intro h
    cases hm : regex_search text s re with
    | none => rfl
    | some m =>
      obtain ⟨args, hs, hocc, -⟩ := (regex_search_shape hre text s m).1 hm
      exact absurd hocc (h _ _ hs)

theorem regex_search_progress {re : Regex} {tag : Char} {n : Nat} (hre : HasShape re tag n)
    {text : Str} {s : Nat} {m : Match} (h : regex_search text s re = some m) :
    s ≤ m.start ∧ m.start < m.stop ∧ m.stop ≤ text.length := by
  obtain ⟨args, hs, hocc, hstop, -⟩ := (regex_search_shape hre text s m).1 h
  have := hocc.lt_length
  omega

/-! ## The loops -/

theorem progresses_of_hasShape {re : Regex} {tag : Char} {n : Nat} (hre : HasShape re tag n) :
    Progresses re := fun _ _ _ h => regex_search_progress hre h

theorem applyLoop_eq {pattern : Regex} {text : Str} (f : Match → Program → Program)
    (hp : Progresses pattern) :
    ∀ (fuel s : Nat) (p : Program) (b : Bool), s ≤ text.length → text.length < s + fuel →
      applyLoop pattern text f fuel s (p, b) =
        some (runMatches f (scanLoop pattern text fuel s) p,
          b || !(scanLoop pattern text fuel s).isEmpty) := by
  intro fuel
  induction fuel with
  | zero => intro s p b h1 h2; omega
  | succ fuel ih =>
    intro s p b h1 h2
    rw [applyLoop, scanLoop]
    cases hm : regex_search text s pattern with
    | none => simp [runMatches]
    | some m =>
      obtain ⟨h3, h4, h5⟩ := hp text s m hm
      dsimp only
      by_cases hu : (f m p).uncaught.isSome = true
      · rw [if_pos hu]
        simp [runMatches, hu]
      · rw [if_neg hu, ih m.stop (f m p) true h5 (by omega)]
        simp [runMatches, hu]

theorem apply_eq {pattern : Regex} (text : Str) (f : Match → Program → Program)
    (hp : Progresses pattern) (p : Program) (b : Bool) :
    apply pattern text f (p, b) =
      some (runMatches f (scan pattern text) p, b || !(scan pattern text).isEmpty) :=
  applyLoop_eq f hp _ 0 p b (Nat.zero_le _) (by omega)

theorem scanLoop_bounds {pattern : Regex} {text : Str} (hp : Progresses pattern) :
    ∀ (fuel s : Nat) (m : Match), m ∈ scanLoop pattern text fuel s →
      s ≤ m.start ∧ m.start < m.stop ∧ m.stop ≤ text.length := by
  intro fuel
  induction fuel with
  | zero => intro s m h; simp [scanLoop] at h
  | succ fuel ih =>
    intro s m h
    rw [scanLoop] at h
    cases hm : regex_search text s pattern with
    | none => rw [hm] at h; simp at h
    | some m' =>
      rw [hm] at h
      obtain ⟨h3, h4, h5⟩ := hp text s m' hm
      rcases List.mem_cons.1 h with rfl | h
      · exact ⟨h3, h4, h5⟩
      · obtain ⟨h6, h7, h8⟩ := ih m'.stop m h
        exact ⟨by omega, h7, h8⟩

theorem scanLoop_sorted {pattern : Regex} {text : Str} (hp : Progresses pattern) :
    ∀ (fuel s : Nat), (scanLoop pattern text fuel s).Pairwise (fun a b => a.stop ≤ b.start) := by
  intro fuel
  induction fuel with
  | zero => intro s; simp [scanLoop]
  | succ fuel ih =>
    intro s
    rw [scanLoop]
    cases hm : regex_search text s pattern with
    | none => simp
    | some m' =>
      dsimp only
      rw [List.pairwise_cons]
      exact ⟨fun b hb => (scanLoop_bounds hp fuel m'.stop b hb).1, ih m'.stop⟩

/-! ## The loop bodies -/

theorem isBody_translateFunc (erange : Decimal → Bool) (it : Nat) :
    IsBody it (IsTranslation erange) (translateFunc erange it) := by
  intro m p
  unfold translateFunc
  cases h₁ : stof erange (m.str 1) with
  | error e => exact Or.inl ⟨e, rfl⟩
  | ok x =>
    cases h₂ : stof erange (m.str 2) with
    | error e => exact Or.inl ⟨e, rfl⟩
    | ok y =>
      cases h₃ : stof erange (m.str 3) with
      | error e => exact Or.inl ⟨e, rfl⟩
      | ok z => exact Or.inr ⟨.translate x y z, ⟨x, y, z, h₁, h₂, h₃, rfl⟩, rfl⟩

theorem isBody_rotateFunc (erange : Decimal → Bool) (it : Nat) :
    IsBody it (IsRotation erange) (rotateFunc erange it) := by
  intro m p
  unfold rotateFunc
  cases h₁ : stof erange (m.str 1) with
  | error e => exact Or.inl ⟨e, rfl⟩
  | ok angle =>
    cases h₂ : stof erange (m.str 2) with
    | error e => exact Or.inl ⟨e, rfl⟩
    | ok x =>
      cases h₃ : stof erange (m.str 3) with
      | error e => exact Or.inl ⟨e, rfl⟩
      | ok y =>
        cases h₄ : stof erange (m.str 4) with
        | error e => exact Or.inl ⟨e, rfl⟩
        | ok z => exact Or.inr ⟨.rotate angle x y z, ⟨angle, x, y, z, h₁, h₂, h₃, h₄, rfl⟩, rfl⟩

theorem isBody_scaleFunc (erange : Decimal → Bool) (it : Nat) :
    IsBody it (IsScale erange) (scaleFunc erange it) := by
  intro m p
  unfold scaleFunc
  cases h₁ : stof erange (m.str 1) with
  | error e => exact Or.inl ⟨e, rfl⟩
  | ok x =>
    cases h₂ : stof erange (m.str 2) with
    | error e => exact Or.inl ⟨e, rfl⟩
    | ok y =>
      cases h₃ : stof erange (m.str 3) with
      | error e => exact Or.inl ⟨e, rfl⟩
      | ok z => exact Or.inr ⟨.scale x y z, ⟨x, y, z, h₁, h₂, h₃, rfl⟩, rfl⟩

theorem perform_uncaught (it : Nat) (op : Transform) (p : Program) :
    (perform it op p).uncaught = p.uncaught := rfl

theorem performAll_uncaught (it : Nat) :
    ∀ (ops : List Transform) (p : Program), (performAll it ops p).uncaught = p.uncaught := by
  intro ops
  induction ops with
  | nil => intro p; rfl
  | cons op ops ih => intro p; rw [performAll, ih, perform_uncaught]

theorem performAll_append (it : Nat) :
    ∀ (a b : List Transform) (p : Program),
      performAll it (a ++ b) p = performAll it b (performAll it a p) := by
  intro a
  induction a with
  | nil => intro b p; rfl
  | cons op a ih => intro b p; rw [List.cons_append, performAll, ih, performAll]

theorem modifyAt_modifyAt {α : Type} (f g : α → α) :
    ∀ (i : Nat) (l : List α), modifyAt f i (modifyAt g i l) = modifyAt (fun x => f (g x)) i l := by
  intro i l
  induction l generalizing i with
  | nil => cases i <;> rfl
  | cons x xs ih =>
    cases i with
    | zero => rfl
    | succ i => simp [modifyAt, ih]

theorem modifyAt_id {α : Type} (f : α → α) (hf : ∀ x, f x = x) :
    ∀ (i : Nat) (l : List α), modifyAt f i l = l := by
  intro i l
  induction l generalizing i with
  | nil => cases i <;> rfl
  | cons x xs ih =>
    cases i with
    | zero => simp [modifyAt, hf]
    | succ i => simp [modifyAt, ih]

theorem applyTo_eq_compose (op : Transform) (o : GameObject) :
    op.applyTo o = o.compose [op] := by
  cases op <;> rfl

theorem compose_compose (a b : List Transform) (o : GameObject) :
    (o.compose a).compose b = o.compose (a ++ b) := by
  simp [GameObject.compose]

theorem compose_nil (o : GameObject) : o.compose [] = o := by
  simp [GameObject.compose]

theorem performAll_gameObjects (it : Nat) :
    ∀ (ops : List Transform) (p : Program),
      (performAll it ops p).gameObjects = modifyAt (GameObject.compose ops) it p.gameObjects := by
  intro ops
  induction ops with
  | nil =>
    intro p
    rw [performAll, modifyAt_id _ compose_nil]
  | cons op ops ih =>
    intro p
    rw [performAll, ih]
    show modifyAt _ it (modifyAt op.applyTo it p.gameObjects) = _
    rw [modifyAt_modifyAt]
    congr 1
    funext o
    rw [applyTo_eq_compose, compose_compose]
    rfl

theorem performAll_stdout (it : Nat) :
    ∀ (ops : List Transform) (p : Program),
      (performAll it ops p).stdout = p.stdout ++ ops.map Transform.report := by
  intro ops
  induction ops with
  | nil => intro p; simp [performAll]
  | cons op ops ih =>
    intro p
    rw [performAll, ih]
    simp [perform, Program.print]

theorem performAll_stdin (it : Nat) :
    ∀ (ops : List Transform) (p : Program), (performAll it ops p).stdin = p.stdin := by
  intro ops
  induction ops with
  | nil => intro p; rfl
  | cons op ops ih => intro p; rw [performAll, ih]; rfl

theorem performAll_flag (it : Nat) :
    ∀ (ops : List Transform) (p : Program),
      (performAll it ops p).graveAccentKeyPressed = p.graveAccentKeyPressed := by
  intro ops
  induction ops with
  | nil => intro p; rfl
  | cons op ops ih => intro p; rw [performAll, ih]; rfl

theorem runMatches_body {it : Nat} {rel : Match → Transform → Prop}
    {f : Match → Program → Program} (hf : IsBody it rel f) :
    ∀ (ms : List Match) (p : Program), p.uncaught = none →
      ∃ ops, (runMatches f ms p = performAll it ops p ∧ List.Forall₂ rel ms ops) ∨
        (∃ e, runMatches f ms p = (performAll it ops p).throw e) := by
  intro ms
  induction ms with
  | nil => intro p _; exact ⟨[], Or.inl ⟨rfl, List.Forall₂.nil⟩⟩
  | cons m ms ih =>
    intro p hp
    rcases hf m p with ⟨e, he⟩ | ⟨op, hrel, hop⟩
    · refine ⟨[], Or.inr ⟨e, ?_⟩⟩
      rw [runMatches, he]
      simp [Program.throw, performAll]
    · have hu : (f m p).uncaught = none := by rw [hop, perform_uncaught, hp]
      obtain ⟨ops, h⟩ := ih (f m p) hu
      refine ⟨op :: ops, ?_⟩
      rw [runMatches, hu]
      simp only [Option.isSome_none, Bool.false_eq_true, if_false]
      rcases h with ⟨h1, h2⟩ | ⟨e, h1⟩
      · exact Or.inl ⟨by rw [h1, hop]; rfl, List.Forall₂.cons hrel h2⟩
      · exact Or.inr ⟨e, by rw [h1, hop]; rfl⟩

/-! ## `applyTo` -/

theorem progresses_translate : Progresses translatePattern :=
  progresses_of_hasShape hasShape_translate

theorem progresses_rotate : Progresses rotatePattern :=
  progresses_of_hasShape hasShape_rotate

theorem progresses_scale : Progresses scalePattern :=
  progresses_of_hasShape hasShape_scale

theorem forall₂_nil_iff_left {α β : Type} {r : α → β → Prop} {l : List α} {l' : List β}
    (h : List.Forall₂ r l l') : l' = [] ↔ l = [] := by
  cases h <;> simp

theorem applyTo_notFound (erange : Decimal → Bool) (name text : Str) (p : Program)
    (h : p.gameObjects.findIdx (fun obj => obj.getName == name) = p.gameObjects.length) :
    applyTo erange name text p = some (p.print (.notFound name)) := by
  unfold applyTo
  simp only [h, if_true]

theorem applyTo_found (erange : Decimal → Bool) (name text : Str) (p : Program)
    (hp : p.uncaught = none)
    (h : p.gameObjects.findIdx (fun obj => obj.getName == name) ≠ p.gameObjects.length) :
    ∃ ops,
      (∃ ts rs ss, ops = ts ++ rs ++ ss ∧
        List.Forall₂ (IsTranslation erange) (scan translatePattern text) ts ∧
        List.Forall₂ (IsRotation erange) (scan rotatePattern text) rs ∧
        List.Forall₂ (IsScale erange) (scan scalePattern text) ss ∧
        applyTo erange name text p =
          some (if ops = [] then p.print .noTransformation
            else performAll (p.gameObjects.findIdx (fun obj => obj.getName == name)) ops p)) ∨
      (∃ e, applyTo erange name text p =
        some ((performAll (p.gameObjects.findIdx (fun obj => obj.getName == name)) ops p).throw e)) := by
  unfold applyTo
  simp only [h, if_false]
  generalize p.gameObjects.findIdx (fun obj => obj.getName == name) = it
  rw [apply_eq text _ progresses_translate]
  dsimp only
  obtain ⟨ts, hts⟩ := runMatches_body (isBody_translateFunc erange it) (scan translatePattern text) p hp
  rcases hts with ⟨e₁, f₁⟩ | ⟨e, e₁⟩
  swap
  · refine ⟨ts, Or.inr ⟨e, ?_⟩⟩
    rw [e₁]
    simp [Program.throw]
  have u₁ : (performAll it ts p).uncaught = none := by rw [performAll_uncaught, hp]
  rw [e₁, u₁]
  simp only [Option.isSome_none, Bool.false_eq_true, if_false]
  rw [apply_eq text _ progresses_rotate]
  dsimp only
  obtain ⟨rs, hrs⟩ :=
    runMatches_body (isBody_rotateFunc erange it) (scan rotatePattern text) (performAll it ts p) u₁
  rw [← performAll_append] at hrs
  rcases hrs with ⟨e₂, f₂⟩ | ⟨e, e₂⟩
  swap
  · refine ⟨ts ++ rs, Or.inr ⟨e, ?_⟩⟩
    rw [e₂]
    simp [Program.throw]
  have u₂ : (performAll it (ts ++ rs) p).uncaught = none := by rw [performAll_uncaught, hp]
  rw [e₂, u₂]
  simp only [Option.isSome_none, Bool.false_eq_true, if_false]
  rw [apply_eq text _ progresses_scale]
  dsimp only
  obtain ⟨ss, hss⟩ :=
    runMatches_body (isBody_scaleFunc erange it) (scan scalePattern text) (performAll it (ts ++ rs) p) u₂
  rw [← performAll_append] at hss
  rcases hss with ⟨e₃, f₃⟩ | ⟨e, e₃⟩
  swap
  · refine ⟨ts ++ rs ++ ss, Or.inr ⟨e, ?_⟩⟩
    rw [e₃]
    simp [Program.throw]
  have u₃ : (performAll it (ts ++ rs ++ ss) p).uncaught = none := by rw [performAll_uncaught, hp]
  rw [e₃, u₃]
  simp only [Option.isSome_none, Bool.false_eq_true, if_false]
  refine ⟨ts ++ rs ++ ss, Or.inl ⟨ts, rs, ss, rfl, f₁, f₂, f₃, ?_⟩⟩
  have k₁ := forall₂_nil_iff_left f₁
  have k₂ := forall₂_nil_iff_left f₂
  have k₃ := forall₂_nil_iff_left f₃
  by_cases hall : ts ++ rs ++ ss = []
  · rw [if_pos hall]
    simp only [List.append_eq_nil] at hall
    obtain ⟨⟨h1, h2⟩, h3⟩ := hall
    rw [k₁.1 h1, k₂.1 h2, k₃.1 h3, h1, h2, h3]
    simp [performAll]
  · rw [if_neg hall]
    have : (false || !(scan translatePattern text).isEmpty || !(scan rotatePattern text).isEmpty ||
        !(scan scalePattern text).isEmpty) = true := by
      simp only [List.append_eq_nil, not_and] at hall
      simp only [Bool.false_or, Bool.or_eq_true, Bool.not_eq_true', List.isEmpty_eq_false,
        ne_eq]
      by_cases h1 : ts = []
      · by_cases h2 : rs = []
        · exact Or.inr (fun h3 => hall ⟨h1, h2⟩ (k₃.2 h3))
        · exact Or.inl (Or.inr (fun h => h2 (k₂.2 h)))
      · exact Or.inl (Or.inl (fun h => h1 (k₁.2 h)))
    rw [this]
    simp

theorem applyTo_total (erange : Decimal → Bool) (name text : Str) (p : Program) :
    ∃ p', applyTo erange name text p = some p' := by
  unfold applyTo
  dsimp only
  split
  · exact ⟨_, rfl⟩
  · rw [apply_eq text _ progresses_translate]
    dsimp only
    split
    · exact ⟨_, rfl⟩
    · rw [apply_eq text _ progresses_rotate]
      dsimp only
      split
      · exact ⟨_, rfl⟩
      · rw [apply_eq text _ progresses_scale]
        dsimp only
        split
        · exact ⟨_, rfl⟩
        · split <;> exact ⟨_, rfl⟩

theorem applyTransformations_total (erange : Decimal → Bool) (input : Str) (p : Program) :
    ∃ p', applyTransformations erange input p = some p' := by
  unfold applyTransformations
  cases splitInput input with
  | none => exact ⟨_, rfl⟩
  | some q => exact applyTo_total erange q.1 q.2 p

/-! ## The menu key -/

theorem menuStep_fst (flag : Bool) (key : KeyState) :
    (menuStep flag key).1 = decide (key = .press) := by
  cases flag <;> cases key <;> rfl

theorem menuStep_snd (flag : Bool) (key : KeyState) :
    (menuStep flag key).2 = (decide (key = .press) && !flag) := by
  cases flag <;> cases key <;> rfl

theorem runFrames_getElem? : ∀ (keys : List KeyState) (flag : Bool) (k : Nat),
    (runFrames flag keys)[k]? = some true ↔
      keys[k]? = some .press ∧
        (if k = 0 then flag = false else keys[k - 1]? = some .release) := by
  intro keys
  induction keys with
  | nil => intro flag k; simp [runFrames]
  | cons key keys ih =>
    intro flag k
    cases k with
    | zero =>
      simp only [runFrames, List.getElem?_cons_zero, Option.some.injEq, menuStep_snd, if_true]
      cases flag <;> cases key <;> simp
    | succ k =>
      simp only [runFrames, List.getElem?_cons_succ, ih, menuStep_fst]
      cases k with
      | zero =>
        simp only [if_true, List.getElem?_cons_zero, Option.some.injEq]
        cases key <;> simp
      | succ k => simp

theorem applyTo_frame (erange : Decimal → Bool) (name text : Str) (p : Program)
    (hp : p.uncaught = none) :
    ∃ p' out, applyTo erange name text p = some p' ∧
      p'.graveAccentKeyPressed = p.graveAccentKeyPressed ∧ p'.stdin = p.stdin ∧
      p'.stdout = p.stdout ++ out := by
  by_cases h : p.gameObjects.findIdx (fun obj => obj.getName == name) = p.gameObjects.length
  · exact ⟨_, [.notFound name], applyTo_notFound erange name text p h, rfl, rfl, rfl⟩
  · obtain ⟨ops, h⟩ := applyTo_found erange name text p hp h
    rcases h with ⟨ts, rs, ss, -, -, -, -, h⟩ | ⟨e, h⟩
    · by_cases hops : ops = []
      · rw [if_pos hops] at h
        exact ⟨_, [.noTransformation], h, rfl, rfl, rfl⟩
      · rw [if_neg hops] at h
        exact ⟨_, ops.map Transform.report, h, performAll_flag _ _ _, performAll_stdin _ _ _,
          performAll_stdout _ _ _⟩
    · exact ⟨_, ops.map Transform.report, h, performAll_flag _ _ _, performAll_stdin _ _ _,
        performAll_stdout _ _ _⟩

theorem applyTransformations_frame (erange : Decimal → Bool) (input : Str) (p : Program)
    (hp : p.uncaught = none) :
    ∃ p' out, applyTransformations erange input p = some p' ∧
      p'.graveAccentKeyPressed = p.graveAccentKeyPressed ∧ p'.stdin = p.stdin ∧
      p'.stdout = p.stdout ++ out := by
  unfold applyTransformations
  cases splitInput input with
  | none => exact ⟨_, [.invalidFormat], rfl, rfl, rfl, rfl⟩
  | some q => exact applyTo_frame erange q.1 q.2 p hp

theorem creationBranch_frame (userInput : Str) (p : Program) :
    ∃ out, (creationBranch userInput p).graveAccentKeyPressed = p.graveAccentKeyPressed ∧
      (creationBranch userInput p).stdout = p.stdout ++ out := by
  unfold creationBranch
  cases regex_search userInput 0 gameObjectCreationPattern with
  | none => exact ⟨[.invalidFormat], rfl, rfl⟩
  | some m => exact ⟨_, rfl, rfl⟩

theorem getline_flag (p : Program) :
    (getline p).2.graveAccentKeyPressed = p.graveAccentKeyPressed ∧
      (getline p).2.stdout = p.stdout ∧ (getline p).2.uncaught = p.uncaught ∧
      (getline p).2.gameObjects = p.gameObjects := by
  unfold getline
  cases p.stdin <;> exact ⟨rfl, rfl, rfl, rfl⟩

theorem processInput_step (erange : Decimal → Bool) (key : KeyState) (p : Program)
    (hp : p.uncaught = none) :
    ∃ p', processInput erange key p = some p' ∧
      p'.graveAccentKeyPressed = (menuStep p.graveAccentKeyPressed key).1 ∧
      ((menuStep p.graveAccentKeyPressed key).2 = true →
        ∃ out, p'.stdout = p.stdout ++ Message.mainMenu :: out) ∧
      ((menuStep p.graveAccentKeyPressed key).2 = false →
        p'.stdout = p.stdout ∧ p'.stdin = p.stdin ∧ p'.gameObjects = p.gameObjects) := by
  unfold processInput
  by_cases hk : (decide (key = .press) && !p.graveAccentKeyPressed) = true
  · have h2 : (menuStep p.graveAccentKeyPressed key).2 = true := by rw [menuStep_snd]; exact hk
    have h1 : (menuStep p.graveAccentKeyPressed key).1 = true := by
      rw [menuStep_fst]
      simp only [Bool.and_eq_true] at hk
      exact hk.1
    rw [if_pos hk, h1, h2]
    dsimp only
    generalize hq : Program.print { p with graveAccentKeyPressed := true } .mainMenu = q
    have hqf : q.graveAccentKeyPressed = true := by rw [← hq]; rfl
    have hqo : q.stdout = p.stdout ++ [.mainMenu] := by rw [← hq]; rfl
    have hqu : q.uncaught = none := by rw [← hq]; exact hp
    obtain ⟨g1, g2, g3, -⟩ := getline_flag q
    split
    · split
      · obtain ⟨f1, f2, -, -⟩ := getline_flag ((getline q).2.print .creationPrompt)
        obtain ⟨out, c1, c2⟩ := creationBranch_frame
          (getline ((getline q).2.print .creationPrompt)).1
          (getline ((getline q).2.print .creationPrompt)).2
        refine ⟨_, rfl, ?_, fun _ => ⟨.creationPrompt :: out, ?_⟩, fun h => by cases h⟩
        · rw [c1, f1]; exact g1.trans hqf
        · rw [c2, f2]
          show (getline q).2.stdout ++ [Message.creationPrompt] ++ out = _
          rw [g2, hqo]; simp
      · split
        · obtain ⟨f1, f2, f3, -⟩ := getline_flag ((getline q).2.print .transformPrompt)
          obtain ⟨p', out, a0, a1, -, a3⟩ := applyTransformations_frame erange
            (getline ((getline q).2.print .transformPrompt)).1
            (getline ((getline q).2.print .transformPrompt)).2 (by rw [f3]; exact g3.trans hqu)
          refine ⟨p', a0, ?_, fun _ => ⟨.transformPrompt :: out, ?_⟩, fun h => by cases h⟩
          · rw [a1, f1]; exact g1.trans hqf
          · rw [a3, f2]
            show (getline q).2.stdout ++ [Message.transformPrompt] ++ out = _
            rw [g2, hqo]; simp
        · exact ⟨_, rfl, g1.trans hqf, fun _ => ⟨[], by rw [g2, hqo]⟩, fun h => by cases h⟩
    · refine ⟨_, rfl, g1.trans hqf, fun _ => ⟨[.invalidEntry], ?_⟩, fun h => by cases h⟩
      show (getline q).2.stdout ++ [Message.invalidEntry] = _
      rw [g2, hqo]; simp
  · have h2 : (menuStep p.graveAccentKeyPressed key).2 = false := by
      rw [menuStep_snd]; simpa using hk
    rw [if_neg hk, h2, menuStep_fst]
    cases key with
    | release => exact ⟨_, rfl, rfl, (fun h => by cases h), fun _ => ⟨rfl, rfl, rfl⟩⟩
    | press => exact ⟨_, rfl, by simpa using hk, (fun h => by cases h), fun _ => ⟨rfl, rfl, rfl⟩⟩

/-- C9: from `graveAccentKeyPressed = false`, a command-read cycle starts in a
polled frame exactly when the key is pressed in that frame and the frame is the
first one or the key was released in the frame before; so within a run of
frames with the key held that begins at such a frame only the first frame
starts a cycle, and between two frames that start a cycle there is a frame with
the key released.  `processInput` itself takes this step: it sets the flag as
`menuStep` does and prints the menu exactly when `menuStep` starts a cycle. -/
theorem menu_cycle_once_per_press (keys : List KeyState) :
    (∀ k, (runFrames false keys)[k]? = some true ↔
      keys[k]? = some .press ∧ (k = 0 ∨ keys[k - 1]? = some .release)) ∧
    (∀ i j : Nat, (∀ k, i ≤ k → k ≤ j → keys[k]? = some .press) →
      (i = 0 ∨ keys[i - 1]? = some .release) →
      ∀ k, i ≤ k → k ≤ j → ((runFrames false keys)[k]? = some true ↔ k = i)) ∧
    (∀ i j : Nat, i < j → (runFrames false keys)[i]? = some true →
      (runFrames false keys)[j]? = some true →
      ∃ k, i < k ∧ k < j ∧ keys[k]? = some .release) ∧
    (∀ (erange : Decimal → Bool) (key : KeyState) (p : Program), p.uncaught = none →
      ∃ p', processInput erange key p = some p' ∧
        p'.graveAccentKeyPressed = (menuStep p.graveAccentKeyPressed key).1 ∧
        ((menuStep p.graveAccentKeyPressed key).2 = true →
          ∃ out, p'.stdout = p.stdout ++ Message.mainMenu :: out) ∧
        ((menuStep p.graveAccentKeyPressed key).2 = false →
          p'.stdout = p.stdout ∧ p'.stdin = p.stdin ∧ p'.gameObjects = p.gameObjects)) := by
  have key : ∀ k, (runFrames false keys)[k]? = some true ↔
      keys[k]? = some .press ∧ (k = 0 ∨ keys[k - 1]? = some .release) := by
    intro k
    rw [runFrames_getElem?]
    by_cases hk : k = 0
    · simp [hk]
    · simp [hk]
  refine ⟨key, ?_, ?_, processInput_step⟩
  · intro i j hheld hstart k hik hkj
    rw [key]
    constructor
    · rintro ⟨-, h⟩
      by_contra hne
      rcases h with h | h
      · omega
      · have := hheld (k - 1) (by omega) (by omega)
        rw [h] at this
        cases this
    · rintro rfl
      exact ⟨hheld k (le_refl _) hkj, hstart⟩
  · intro i j hij hi hj
    rw [key] at hi hj
    rcases hj.2 with h | h
    · omega
    · refine ⟨j - 1, ?_, by omega, h⟩
      by_contra hlt
      have e : j - 1 = i := by omega
      rw [e, hi.1] at h
      cases h

/-! ## The shape of a creation line -/

theorem stopsRun_nonSpace_of_space {w tail : Str} (hw : isRun isSpace w = true) :
    stopsRun isNonSpace (w ++ tail) = true := by
  cases w with
  | nil => simp [isRun] at hw
  | cons c cs =>
    rw [isRun_cons, Bool.and_eq_true] at hw
    simp [stopsRun, isNonSpace, hw.1]

theorem tokenStep_sound {first n : Nat} {k : MState → Option MState} {st res : MState}
    (h : tokenStep first n k st = some res) :
    ∃ tok w tail, st.rest = tok ++ w ++ tail ∧ isRun isNonSpace tok = true ∧
      isRun isSpace w = true ∧
      k ⟨st.pos + tok.length + w.length, tail, (n, tok) :: st.caps⟩ = some res := by
  unfold tokenStep at h
  simp only [matchHere] at h
  obtain ⟨tok, t₁, ht, htrun, hk₁, -⟩ := plusLoop_sound _ _ h
  dsimp only at hk₁
  obtain ⟨w, tail, hw, hwrun, hk₂, -⟩ := plusLoop_sound _ _ hk₁
  refine ⟨tok, w, tail, by rw [ht, hw, List.append_assoc], htrun, hwrun, ?_⟩
  have e : st.pos + tok.length - st.pos = tok.length := by omega
  rw [e, ht, List.take_left'] at hk₂
  · exact hk₂
  · rfl

theorem tokenStep_complete {first n : Nat} {k : MState → Option MState} {st res : MState}
    (tok w tail : Str) (hrest : st.rest = tok ++ w ++ tail) (ht : isRun isNonSpace tok = true)
    (hw : isRun isSpace w = true) (hstop : stopsRun isSpace tail = true)
    (hk : k ⟨st.pos + tok.length + w.length, tail, (n, tok) :: st.caps⟩ = some res) :
    tokenStep first n k st = some res := by
  unfold tokenStep
  simp only [matchHere]
  rw [hrest, List.append_assoc]
  apply plusLoop_run_some (a := .nonSpace) tok (w ++ tail) st.pos res ht
    (stopsRun_nonSpace_of_space hw)
  dsimp only
  apply plusLoop_run_some (a := .space) w tail _ res hw hstop
  have e : st.pos + tok.length - st.pos = tok.length := by omega
  rw [e, List.take_left']
  · exact hk
  · rfl

theorem flagStep_iff (first : Nat) (st res : MState) :
    flagStep first st = some res ↔
      ∃ f, (f = '0' ∨ f = '1') ∧ st.rest = [f] ∧ res = ⟨st.pos + 1, [], (3, [f]) :: st.caps⟩ := by
  unfold flagStep
  simp only [matchHere]
  cases hrest : st.rest with
  | nil => simp
  | cons c cs =>
    simp only [Atom.test, beq_iff_eq]
    have e : st.pos + 1 - st.pos = 1 := by omega
    by_cases h0 : c = '0'
    · subst h0
      cases cs with
      | nil => simp [e, eq_comm]
      | cons d ds => simp
    · by_cases h1 : c = '1'
      · subst h1
        cases cs with
        | nil => simp [e, eq_comm]
        | cons d ds => simp
      · simp only [h0, h1, if_false]
        constructor
        · intro h; cases h
        rintro ⟨f, hf, hfe, -⟩
        simp only [List.cons.injEq] at hfe
        rcases hf with rfl | rfl
        · exact absurd hfe.1 h0
        · exact absurd hfe.1 h1

theorem matchHere_creation (first : Nat) (st : MState) :
    matchHere first gameObjectCreationPattern some st =
      if st.pos = first then
        tokenStep first 1 (fun s => tokenStep first 2 (fun s => flagStep first s) s) st
      else none := rfl

theorem creation_sound {first pos : Nat} {s : Str} {res : MState}
    (h : matchHere first gameObjectCreationPattern some ⟨pos, s, []⟩ = some res) :
    pos = first ∧ ∃ name w₁ path w₂ flag, s = name ++ w₁ ++ path ++ w₂ ++ [flag] ∧
      isCreationLine name w₁ path w₂ flag = true ∧
      res = ⟨pos + s.length, [], [(3, [flag]), (2, path), (1, name)]⟩ := by
  rw [matchHere_creation] at h
  by_cases hp : pos = first
  · refine ⟨hp, ?_⟩
    dsimp only at h
    rw [if_pos hp] at h
    obtain ⟨name, w₁, t₁, e₁, hn, hw₁, h₁⟩ := tokenStep_sound h
    obtain ⟨path, w₂, t₂, e₂, hpath, hw₂, h₂⟩ := tokenStep_sound h₁
    obtain ⟨f, hf, e₃, hres⟩ := (flagStep_iff _ _ _).1 h₂
    dsimp only at e₁ e₂ e₃ hres
    refine ⟨name, w₁, path, w₂, f, ?_, ?_, ?_⟩
    · rw [e₁, e₂, e₃]; simp
    · simp only [isCreationLine, hn, hw₁, hpath, hw₂, Bool.and_self, Bool.true_and,
        Bool.or_eq_true, beq_iff_eq]
      exact hf
    · rw [hres, e₁, e₂, e₃]
      simp only [List.length_append, List.length_singleton, MState.mk.injEq, and_true]
      omega
  · dsimp only at h
    rw [if_neg hp] at h; cases h

theorem creation_complete {pos : Nat} {name w₁ path w₂ : Str} {flag : Char}
    (h : isCreationLine name w₁ path w₂ flag = true) :
    matchHere pos gameObjectCreationPattern some ⟨pos, name ++ w₁ ++ path ++ w₂ ++ [flag], []⟩ =
      some ⟨pos + (name ++ w₁ ++ path ++ w₂ ++ [flag]).length, [],
        [(3, [flag]), (2, path), (1, name)]⟩ := by
  simp only [isCreationLine, Bool.and_eq_true, Bool.or_eq_true, beq_iff_eq] at h
  obtain ⟨⟨⟨⟨hn, hw₁⟩, hpath⟩, hw₂⟩, hf⟩ := h
  have hfs : isSpace flag = false := by rcases hf with rfl | rfl <;> decide
  rw [matchHere_creation]
  simp only [if_true]
  apply tokenStep_complete name w₁ (path ++ w₂ ++ [flag]) (by simp) hn hw₁
  · cases path with
    | nil => simp [isRun] at hpath
    | cons c cs =>
      rw [isRun_cons, Bool.and_eq_true] at hpath
      have : isSpace c = false := by simpa [isNonSpace] using hpath.1
      simp [stopsRun, this]
  apply tokenStep_complete path w₂ [flag] (by simp) hpath hw₂ (by simp [stopsRun, hfs])
  rw [flagStep_iff]
  refine ⟨flag, hf, rfl, ?_⟩
  simp only [List.length_append, List.length_singleton, MState.mk.injEq, and_true]
  omega

theorem searchFrom_creation_later : ∀ (s : Str) (first pos : Nat), first < pos →
    searchFrom gameObjectCreationPattern first pos s = none := by
  intro s
  induction s with
  | nil =>
    intro first pos h
    rw [searchFrom, matchHere_creation, if_neg (by dsimp only; omega)]
  | cons c cs ih =>
    intro first pos h
    rw [searchFrom, matchHere_creation, if_neg (by dsimp only; omega)]
    exact ih first (pos + 1) (by omega)

theorem regex_search_creation (line : Str) :
    regex_search line 0 gameObjectCreationPattern =
      match matchHere 0 gameObjectCreationPattern some ⟨0, line, []⟩ with
      | some st => some ⟨0, st.pos, st.caps⟩
      | none => none := by
  unfold regex_search
  rw [List.drop_zero]
  cases line with
  | nil => rw [searchFrom]
  | cons c cs =>
    rw [searchFrom]
    cases matchHere 0 gameObjectCreationPattern some ⟨0, c :: cs, []⟩ with
    | some st => rfl
    | none => exact searchFrom_creation_later cs 0 1 (by omega)

theorem regex_search_creation_some {name w₁ path w₂ : Str} {flag : Char}
    (h : isCreationLine name w₁ path w₂ flag = true) :
    regex_search (name ++ w₁ ++ path ++ w₂ ++ [flag]) 0 gameObjectCreationPattern =
      some ⟨0, (name ++ w₁ ++ path ++ w₂ ++ [flag]).length,
        [(3, [flag]), (2, path), (1, name)]⟩ := by
  rw [regex_search_creation, creation_complete h]
  simp

theorem regex_search_creation_none {line : Str} (h : ¬ CreationShape line) :
    regex_search line 0 gameObjectCreationPattern = none := by
  rw [regex_search_creation]
  cases hm : matchHere 0 gameObjectCreationPattern some ⟨0, line, []⟩ with
  | none => rfl
  | some st =>
    exfalso
    obtain ⟨-, name, w₁, path, w₂, flag, hl, hc, -⟩ := creation_sound hm
    exact h ⟨name, w₁, path, w₂, flag, hl, hc⟩

/-! ## Creation -/

/-- C2: a line that is not of the shape `<name> <path> <flag>` (two tokens free
of white space and a flag `0` or `1`, separated by white space) makes the
creation branch report invalid input and leave the registry as it is; every
line of that shape is accepted: the creation is reported and one object joins
the registry. -/
theorem creation_accepts_exactly_the_shape (line : Str) (p : Program) :
    (¬ CreationShape line →
      creationBranch line p = p.print .invalidFormat ∧
        (creationBranch line p).gameObjects = p.gameObjects) ∧
    (CreationShape line →
      ∃ name path flip,
        (creationBranch line p).stdout = p.stdout ++ [.created name path flip] ∧
        (creationBranch line p).gameObjects =
          p.gameObjects ++ [GameObject.create name path flip]) := by
  constructor
  · intro h
    unfold creationBranch
    rw [regex_search_creation_none h]
    exact ⟨rfl, rfl⟩
  · rintro ⟨name, w₁, path, w₂, flag, rfl, h⟩
    unfold creationBranch
    rw [regex_search_creation_some h]
    exact ⟨_, _, _, rfl, rfl⟩

/-- C3: for an accepted creation line `name w₁ path w₂ flag` and any registry,
also one that already holds an object of that name, the creation branch appends
exactly one object at the end, with the first token as its name, the second as
its path, the flip flag set iff the flag is `1` and the identity transform; the
objects registered before are kept as they were, in the same order. -/
theorem creation_appends_one_object (name w₁ path w₂ : Str) (flag : Char) (p : Program)
    (h : isCreationLine name w₁ path w₂ flag = true) :
    creationBranch (name ++ w₁ ++ path ++ w₂ ++ [flag]) p =
      { p with
        gameObjects := p.gameObjects ++ [⟨name, path, flag == '1', []⟩]
        stdout := p.stdout ++ [.created name path (flag == '1')] } := by
  unfold creationBranch
  rw [regex_search_creation_some h]
  simp [Match.str, List.lookup, Program.print, GameObject.create]

theorem creation_appends_one_object_witness :
    isCreationLine "cube".toList " ".toList "models/cube.obj".toList " ".toList '1' = true ∧
      creationBranch "cube models/cube.obj 1".toList sampleCubeProgram =
        { sampleCubeProgram with
          gameObjects :=
            [⟨"cube".toList, "old.obj".toList, false, []⟩,
              ⟨"cube".toList, "models/cube.obj".toList, true, []⟩]
          stdout := [.created "cube".toList "models/cube.obj".toList true] } :=
  ⟨by decide,
    creation_appends_one_object "cube".toList " ".toList "models/cube.obj".toList " ".toList '1'
      sampleCubeProgram (by decide)⟩

/-! ## The split of a transform line -/

theorem splitInput_nil : splitInput [] = none := rfl

theorem splitInput_cons (x : Char) (xs : Str) :
    splitInput (x :: xs) =
      if x = ' ' then some ([], xs) else (splitInput xs).map (fun q => (x :: q.1, q.2)) := by
  unfold splitInput
  rw [find]
  by_cases hx : x = ' '
  · simp [hx]
  · simp only [hx, if_false]
    cases find ' ' xs <;> simp

theorem splitInput_some_iff : ∀ (line name rest : Str),
    splitInput line = some (name, rest) ↔ line = name ++ ' ' :: rest ∧ ' ' ∉ name := by
  intro line
  induction line with
  | nil => intro name rest; simp [splitInput_nil]
  | cons x xs ih =>
    intro name rest
    rw [splitInput_cons]
    by_cases hx : x = ' '
    · subst hx
      simp only [if_true, Option.some.injEq, Prod.mk.injEq]
      constructor
      · rintro ⟨rfl, rfl⟩; simp
      · rintro ⟨h, hn⟩
        cases name with
        | nil => simpa using h
        | cons c cs =>
          simp only [List.cons_append, List.cons.injEq] at h
          exact absurd (by rw [← h.1]; simp) hn
    · simp only [hx, if_false]
      constructor
      · intro h
        cases hs : splitInput xs with
        | none => rw [hs] at h; cases h
        | some q =>
          rw [hs] at h
          simp only [Option.map_some', Option.some.injEq, Prod.mk.injEq] at h
          obtain ⟨h1, h2⟩ := h
          have := (ih q.1 q.2).1 (by rw [hs])
          subst h1 h2
          refine ⟨by rw [this.1]; simp, ?_⟩
          simp only [List.mem_cons, not_or]
          exact ⟨fun h => hx h.symm, this.2⟩
      · rintro ⟨h, hn⟩
        cases name with
        | nil =>
          simp only [List.nil_append, List.cons.injEq] at h
          exact absurd h.1 hx
        | cons c cs =>
          simp only [List.cons_append, List.cons.injEq] at h
          simp only [List.mem_cons, not_or] at hn
          rw [(ih cs rest).2 ⟨h.2, hn.2⟩]
          simp [h.1]

theorem splitInput_none_iff : ∀ (line : Str), splitInput line = none ↔ ' ' ∉ line := by
  intro line
  induction line with
  | nil => simp [splitInput_nil]
  | cons x xs ih =>
    rw [splitInput_cons]
    by_cases hx : x = ' '
    · simp [hx]
    · simp only [hx, if_false, Option.map_eq_none', ih, List.mem_cons, not_or]
      exact ⟨fun h => ⟨fun h' => hx h'.symm, h⟩, fun h => h.2⟩

theorem firstToken_append (name rest : Str) (h : ∀ c ∈ name, isSpace c = false) :
    firstToken (name ++ ' ' :: rest) = name := by
  induction name with
  | nil =>
    have hs : isNonSpace ' ' = false := by decide
    simp [firstToken, List.takeWhile_cons, hs]
  | cons c cs ih =>
    have hc : isNonSpace c = true := by simp [isNonSpace, h c (by simp)]
    simp only [firstToken, List.cons_append, List.takeWhile_cons, hc, if_true, List.cons.injEq,
      true_and]
    exact ih (fun d hd => h d (by simp [hd]))

/-- C5, corrected: the name that `applyTransformations` looks up is the text
before the first space character (U+0020) of the line and the text that is
scanned is the text after that space; a line without a space splits into
nothing and is reported as invalid input.  Other white space does not delimit
the name: only when the name so obtained holds no white space is it the first
white-space-delimited token of the line. -/
theorem name_is_text_before_first_space (line : Str) :
    (∀ name rest, splitInput line = some (name, rest) ↔
      line = name ++ ' ' :: rest ∧ ' ' ∉ name) ∧
    (splitInput line = none ↔ ' ' ∉ line) ∧
    (∀ name rest, splitInput line = some (name, rest) → (∀ c ∈ name, isSpace c = false) →
      name = firstToken line) ∧
    (∀ (erange : Decimal → Bool) (p : Program),
      applyTransformations erange line p =
        match splitInput line with
        | none => some (p.print .invalidFormat)
        | some q => applyTo erange q.1 q.2 p) := by
  refine ⟨splitInput_some_iff line, splitInput_none_iff line, ?_, fun _ _ => ?_⟩
  · intro name rest h hname
    rw [((splitInput_some_iff line name rest).1 h).1, firstToken_append name rest hname]
  · unfold applyTransformations
    cases splitInput line <;> rfl

set_option maxRecDepth 100000 in
/-- C5 fails when a tab ends the first token: in `a<TAB>t 1 0 0` the first
white-space-delimited token is `a`, an object of the registry, but the name
looked up is `a<TAB>t`, which is reported as not found. -/
theorem name_is_first_token_counterexample :
    firstToken "a\tt 1 0 0".toList = "a".toList ∧
      (splitInput "a\tt 1 0 0".toList).map Prod.fst = some "a\tt".toList ∧
      (splitInput "a\tt 1 0 0".toList).map Prod.fst ≠ some (firstToken "a\tt 1 0 0".toList) ∧
      applyTransformations binary32Overflow "a\tt 1 0 0".toList sampleProgram =
        some (sampleProgram.print (.notFound "a\tt".toList)) := by
  decide

/-! ## Lookup -/

theorem findIdx_first (before after : List GameObject) (target : GameObject) (name : Str)
    (hb : ∀ o ∈ before, o.getName ≠ name) (ht : target.getName = name) :
    (before ++ target :: after).findIdx (fun obj => obj.getName == name) = before.length := by
  rw [List.findIdx_append]
  have h1 : before.findIdx (fun obj => obj.getName == name) = before.length := by
    apply List.findIdx_eq_length_of_false
    intro o ho
    exact beq_false_of_ne (hb o ho)
  rw [h1, if_neg (Nat.lt_irrefl _), List.findIdx_cons]
  simp [ht]

theorem modifyAt_append_cons {α : Type} (f : α → α) (before after : List α) (x : α) :
    modifyAt f before.length (before ++ x :: after) = before ++ f x :: after := by
  induction before with
  | nil => rfl
  | cons b bs ih => simp [modifyAt, ih]

theorem findIdx_absent (l : List GameObject) (name : Str) (h : ∀ o ∈ l, o.getName ≠ name) :
    l.findIdx (fun obj => obj.getName == name) = l.length := by
  apply List.findIdx_eq_length_of_false
  intro o ho
  exact beq_false_of_ne (h o ho)

theorem applyTransformations_split (erange : Decimal → Bool) (name rest : Str) (p : Program)
    (hname : ' ' ∉ name) :
    applyTransformations erange (name ++ ' ' :: rest) p = applyTo erange name rest p := by
  unfold applyTransformations
  rw [(splitInput_some_iff _ name rest).2 ⟨rfl, hname⟩]

theorem applyTransformations_noSpace (erange : Decimal → Bool) (line : Str) (p : Program)
    (h : ' ' ∉ line) : applyTransformations erange line p = some (p.print .invalidFormat) := by
  unfold applyTransformations
  rw [(splitInput_none_iff line).2 h]

/-- C4, corrected: when the text before the first space of a transform line is
the name of no registered object, `applyTransformations` reports the lookup
failure for that text and does nothing else, whatever the rest of the line
holds; a line without a space is reported as invalid input instead.  In both
cases the registry and every object in it are unchanged. -/
theorem unknown_target_changes_nothing (erange : Decimal → Bool) (name rest : Str)
    (p : Program) (hname : ' ' ∉ name) (habsent : ∀ o ∈ p.gameObjects, o.getName ≠ name) :
    applyTransformations erange (name ++ ' ' :: rest) p = some (p.print (.notFound name)) ∧
      (p.print (.notFound name)).gameObjects = p.gameObjects ∧
      (∀ line, ' ' ∉ line →
        applyTransformations erange line p = some (p.print .invalidFormat) ∧
          (p.print .invalidFormat).gameObjects = p.gameObjects) := by
  refine ⟨?_, rfl, fun line h => ⟨applyTransformations_noSpace erange line p h, rfl⟩⟩
  rw [applyTransformations_split erange name rest p hname]
  exact applyTo_notFound erange name rest p (findIdx_absent _ _ habsent)

set_option maxRecDepth 100000 in
theorem unknown_target_changes_nothing_witness :
    applyTransformations binary32Overflow "ghost t 1 2 3 s 2 2 2".toList sampleProgram =
        some (sampleProgram.print (.notFound "ghost".toList)) ∧
      (sampleProgram.print (.notFound "ghost".toList)).gameObjects = sampleProgram.gameObjects ∧
      (∀ line, ' ' ∉ line →
        applyTransformations binary32Overflow line sampleProgram =
            some (sampleProgram.print .invalidFormat) ∧
          (sampleProgram.print .invalidFormat).gameObjects = sampleProgram.gameObjects) :=
  unknown_target_changes_nothing binary32Overflow "ghost".toList "t 1 2 3 s 2 2 2".toList
    sampleProgram (by decide) (by decide)

set_option maxRecDepth 100000 in
/-- C4 fails on a line without a space: for `ghost`, the name of no object, the
report is the invalid-input line and not the lookup failure. -/
theorem unknown_target_counterexample :
    (∀ o ∈ sampleProgram.gameObjects, o.getName ≠ firstToken "ghost".toList) ∧
      applyTransformations binary32Overflow "ghost".toList sampleProgram =
        some (sampleProgram.print .invalidFormat) ∧
      applyTransformations binary32Overflow "ghost".toList sampleProgram ≠
        some (sampleProgram.print (.notFound "ghost".toList)) := by
  decide

/-! ## No transformation -/

theorem scan_eq_nil {pattern : Regex} {text : Str}
    (h : regex_search text 0 pattern = none) : scan pattern text = [] := by
  unfold scan
  rw [scanLoop, h]

theorem applyTo_noOccurrence (erange : Decimal → Bool) (name text : Str) (p : Program)
    (hp : p.uncaught = none)
    (hfound : p.gameObjects.findIdx (fun obj => obj.getName == name) ≠ p.gameObjects.length)
    (hno : NoOccurrence text) :
    applyTo erange name text p = some (p.print .noTransformation) := by
  obtain ⟨ht, hr, hs⟩ := hno
  have st := scan_eq_nil ((regex_search_none hasShape_translate text 0).2 (fun j a _ => ht j a))
  have sr := scan_eq_nil ((regex_search_none hasShape_rotate text 0).2 (fun j a _ => hr j a))
  have ss := scan_eq_nil ((regex_search_none hasShape_scale text 0).2 (fun j a _ => hs j a))
  unfold applyTo
  simp only [hfound, if_false]
  rw [apply_eq text _ progresses_translate, st]
  simp only [runMatches, hp, Option.isSome_none, Bool.false_eq_true, if_false]
  rw [apply_eq text _ progresses_rotate, sr]
  simp only [runMatches, hp, Option.isSome_none, Bool.false_eq_true, if_false]
  rw [apply_eq text _ progresses_scale, ss]
  simp [runMatches, hp]

/-- C8, corrected: when the object named before the first space exists and the
text after that space holds no occurrence of any of the three sub-patterns,
`applyTransformations` reports that no transformation was applied and changes
no object; a line that is the name alone has no space and is reported as
invalid input instead, also without any change. -/
theorem no_match_changes_nothing (erange : Decimal → Bool) (name rest : Str) (p : Program)
    (hp : p.uncaught = none) (hname : ' ' ∉ name)
    (hfound : ∃ o ∈ p.gameObjects, o.getName = name) (hno : NoOccurrence rest) :
    applyTransformations erange (name ++ ' ' :: rest) p = some (p.print .noTransformation) ∧
      (p.print .noTransformation).gameObjects = p.gameObjects ∧
      applyTransformations erange name p = some (p.print .invalidFormat) ∧
      (p.print .invalidFormat).gameObjects = p.gameObjects := by
  refine ⟨?_, rfl, applyTransformations_noSpace erange name p hname, rfl⟩
  rw [applyTransformations_split erange name rest p hname]
  apply applyTo_noOccurrence erange name rest p hp _ hno
  intro h
  rw [List.findIdx_eq_length] at h
  obtain ⟨o, ho, hn⟩ := hfound
  have := h o ho
  rw [hn] at this
  simp at this

set_option maxRecDepth 100000 in
theorem no_match_changes_nothing_witness :
    applyTransformations binary32Overflow "a hello t 1 2".toList sampleProgram =
        some (sampleProgram.print .noTransformation) ∧
      (sampleProgram.print .noTransformation).gameObjects = sampleProgram.gameObjects ∧
      applyTransformations binary32Overflow "a".toList sampleProgram =
        some (sampleProgram.print .invalidFormat) ∧
      (sampleProgram.print .invalidFormat).gameObjects = sampleProgram.gameObjects :=
  no_match_changes_nothing binary32Overflow "a".toList "hello t 1 2".toList sampleProgram rfl
    (by decide) ⟨GameObject.create "a".toList "a.obj".toList false, by decide, rfl⟩
    ⟨fun j a => (regex_search_none hasShape_translate _ 0).1 (by decide) j a (Nat.zero_le j),
      fun j a => (regex_search_none hasShape_rotate _ 0).1 (by decide) j a (Nat.zero_le j),
      fun j a => (regex_search_none hasShape_scale _ 0).1 (by decide) j a (Nat.zero_le j)⟩

set_option maxRecDepth 100000 in
/-- C8 fails on a line that is the object's name alone: for `a`, a registered
object, the report is the invalid-input line, not the line that says that no
transformation was applied. -/
theorem name_alone_counterexample :
    (∃ o ∈ sampleProgram.gameObjects, o.getName = "a".toList) ∧
      applyTransformations binary32Overflow "a".toList sampleProgram =
        some (sampleProgram.print .invalidFormat) ∧
      applyTransformations binary32Overflow "a".toList sampleProgram ≠
        some (sampleProgram.print .noTransformation) := by
  decide

/-! ## Duplicate names -/

theorem scanLoop_successive {pattern : Regex} {text : Str} (hp : Progresses pattern) :
    ∀ (fuel s : Nat), s ≤ text.length → text.length < s + fuel →
      SuccessiveMatches pattern text s (scanLoop pattern text fuel s) := by
  intro fuel
  induction fuel with
  | zero => intro s h1 h2; omega
  | succ fuel ih =>
    intro s h1 h2
    rw [scanLoop]
    cases hm : regex_search text s pattern with
    | none => exact hm
    | some m =>
      obtain ⟨h3, h4, h5⟩ := hp text s m hm
      exact ⟨hm, ih m.stop h5 (by omega)⟩

theorem scan_successive {pattern : Regex} (text : Str) (hp : Progresses pattern) :
    SuccessiveMatches pattern text 0 (scan pattern text) :=
  scanLoop_successive hp _ 0 (Nat.zero_le _) (by omega)

theorem scan_leftToRight {pattern : Regex} (text : Str) (hp : Progresses pattern) :
    LeftToRight (scan pattern text) :=
  scanLoop_sorted hp _ 0

/-- C1, corrected: for a transform line whose target object exists,
`applyTransformations` returns, and when no number conversion throws, the
operations composed into the target are all the translations, then all the
rotations, then all the scales; within each kind they are the successive
matches of that kind's pattern from left to right, each with the converted
arguments of its match.  No other object changes. -/
theorem operations_grouped_by_kind (erange : Decimal → Bool) (name rest : Str)
    (before after : List GameObject) (target : GameObject) (p : Program)
    (hp : p.uncaught = none) (hname : ' ' ∉ name)
    (hreg : p.gameObjects = before ++ target :: after)
    (hb : ∀ o ∈ before, o.getName ≠ name) (ht : target.getName = name) :
    (∃ p', applyTransformations erange (name ++ ' ' :: rest) p = some p' ∧
      (p'.uncaught = none →
        ∃ ts rs ss,
          List.Forall₂ (IsTranslation erange) (scan translatePattern rest) ts ∧
          List.Forall₂ (IsRotation erange) (scan rotatePattern rest) rs ∧
          List.Forall₂ (IsScale erange) (scan scalePattern rest) ss ∧
          p'.gameObjects = before ++ target.compose (ts ++ rs ++ ss) :: after)) ∧
    (SuccessiveMatches translatePattern rest 0 (scan translatePattern rest) ∧
      LeftToRight (scan translatePattern rest)) ∧
    (SuccessiveMatches rotatePattern rest 0 (scan rotatePattern rest) ∧
      LeftToRight (scan rotatePattern rest)) ∧
    (SuccessiveMatches scalePattern rest 0 (scan scalePattern rest) ∧
      LeftToRight (scan scalePattern rest)) := by
  refine ⟨?_, ⟨scan_successive rest progresses_translate, scan_leftToRight rest progresses_translate⟩,
    ⟨scan_successive rest progresses_rotate, scan_leftToRight rest progresses_rotate⟩,
    ⟨scan_successive rest progresses_scale, scan_leftToRight rest progresses_scale⟩⟩
  rw [applyTransformations_split erange name rest p hname]
  have hidx : p.gameObjects.findIdx (fun obj => obj.getName == name) = before.length := by
    rw [hreg]; exact findIdx_first before after target name hb ht
  have hne : p.gameObjects.findIdx (fun obj => obj.getName == name) ≠ p.gameObjects.length := by
    rw [hidx, hreg]; simp
  obtain ⟨ops, h⟩ := applyTo_found erange name rest p hp hne
  rw [hidx] at h
  rcases h with ⟨ts, rs, ss, hops, f₁, f₂, f₃, h⟩ | ⟨e, h⟩
  · refine ⟨_, h, fun _ => ⟨ts, rs, ss, f₁, f₂, f₃, ?_⟩⟩
    rw [← hops]
    by_cases hnil : ops = []
    · rw [if_pos hnil, hnil, compose_nil]
      exact hreg
    · rw [if_neg hnil, performAll_gameObjects, hreg, modifyAt_append_cons]
  · refine ⟨_, h, fun hu => ?_⟩
    simp [Program.throw] at hu

set_option maxRecDepth 100000 in
theorem operations_grouped_by_kind_witness :
    ((∃ p', applyTransformations binary32Overflow "a t 1 0 0 r 90 0 1 0 t 0 1 0".toList
          sampleProgram = some p' ∧
      (p'.uncaught = none →
        ∃ ts rs ss,
          List.Forall₂ (IsTranslation binary32Overflow)
            (scan translatePattern "t 1 0 0 r 90 0 1 0 t 0 1 0".toList) ts ∧
          List.Forall₂ (IsRotation binary32Overflow)
            (scan rotatePattern "t 1 0 0 r 90 0 1 0 t 0 1 0".toList) rs ∧
          List.Forall₂ (IsScale binary32Overflow)
            (scan scalePattern "t 1 0 0 r 90 0 1 0 t 0 1 0".toList) ss ∧
          p'.gameObjects =
            [] ++ (GameObject.create "a".toList "a.obj".toList false).compose (ts ++ rs ++ ss) ::
              [])) ∧
    (SuccessiveMatches translatePattern "t 1 0 0 r 90 0 1 0 t 0 1 0".toList 0
        (scan translatePattern "t 1 0 0 r 90 0 1 0 t 0 1 0".toList) ∧
      LeftToRight (scan translatePattern "t 1 0 0 r 90 0 1 0 t 0 1 0".toList)) ∧
    (SuccessiveMatches rotatePattern "t 1 0 0 r 90 0 1 0 t 0 1 0".toList 0
        (scan rotatePattern "t 1 0 0 r 90 0 1 0 t 0 1 0".toList) ∧
      LeftToRight (scan rotatePattern "t 1 0 0 r 90 0 1 0 t 0 1 0".toList)) ∧
    (SuccessiveMatches scalePattern "t 1 0 0 r 90 0 1 0 t 0 1 0".toList 0
        (scan scalePattern "t 1 0 0 r 90 0 1 0 t 0 1 0".toList) ∧
      LeftToRight (scan scalePattern "t 1 0 0 r 90 0 1 0 t 0 1 0".toList))) ∧
    (applyTransformations binary32Overflow "a t 1 0 0 r 90 0 1 0 t 0 1 0".toList
        sampleProgram).map (fun p' => p'.gameObjects.map GameObject.modelMatrix) =
      some [[.translate (.ofNat 1) (.ofNat 0) (.ofNat 0),
        .translate (.ofNat 0) (.ofNat 1) (.ofNat 0),
        .rotate (.ofNat 90) (.ofNat 0) (.ofNat 1) (.ofNat 0)]] :=
  ⟨operations_grouped_by_kind binary32Overflow "a".toList "t 1 0 0 r 90 0 1 0 t 0 1 0".toList
      [] [] (GameObject.create "a".toList "a.obj".toList false) sampleProgram rfl (by decide) rfl
      (by decide) rfl,
    by decide⟩

set_option maxRecDepth 100000 in
/-- C1 fails on its own example: for `a s 2 2 2 t 1 0 0` the calls are the
translation and then the scale, not the scale and then the translation. -/
theorem textual_order_counterexample :
    (applyTransformations binary32Overflow "a s 2 2 2 t 1 0 0".toList sampleProgram).map
        (fun p' => p'.gameObjects.map GameObject.modelMatrix) =
      some [[.translate (.ofNat 1) (.ofNat 0) (.ofNat 0),
        .scale (.ofNat 2) (.ofNat 2) (.ofNat 2)]] ∧
    (applyTransformations binary32Overflow "a s 2 2 2 t 1 0 0".toList sampleProgram).map
        (fun p' => p'.gameObjects.map GameObject.modelMatrix) ≠
      some [[.scale (.ofNat 2) (.ofNat 2) (.ofNat 2),
        .translate (.ofNat 1) (.ofNat 0) (.ofNat 0)]] := by
  decide

/-! ## Number conversion -/

set_option maxRecDepth 100000 in
/-- C7: evaluation at the failing input.  On `a t - 0 0` the pattern captures
the bare sign, `std::stof` throws `std::invalid_argument` whatever the C library
says about ranges, and nothing catches it; with the sample range verdict a
digit run beyond binary32 throws `std::out_of_range` in the same way. -/
theorem conversion_exception_escapes :
    (∀ erange : Decimal → Bool,
      applyTransformations erange "a t - 0 0".toList sampleProgram =
        some (sampleProgram.throw .invalid_argument)) ∧
    applyTransformations binary32Overflow
        "a t 1000000000000000000000000000000000000000 0 0".toList sampleProgram =
      some (sampleProgram.throw .out_of_range) := by
  refine ⟨fun erange => ?_, by decide⟩
  rfl

/-! ## What a sub-pattern recognises -/

/-- C10, corrected: a search for a transformation sub-pattern finds the leftmost
place, at or after its start, where the tag letter is followed by the required
number of arguments, each a non-empty run over `-`, `.` and digits after a
non-empty run of white space, the last run taken as long as it goes; the
sub-matches are those runs.  Nothing is asked of the text before the tag, and
nothing more of an argument. -/
theorem sub_pattern_recognition (text : Str) (s : Nat) (m : Match) :
    (regex_search text s translatePattern = some m ↔
      ∃ args, s ≤ m.start ∧ OccursAt 't' 3 text m.start args ∧
        m.stop = m.start + (occurrenceText 't' args).length ∧ m.caps = argCaps 1 args [] ∧
        ∀ j args', s ≤ j → j < m.start → ¬ OccursAt 't' 3 text j args') ∧
    (regex_search text s rotatePattern = some m ↔
      ∃ args, s ≤ m.start ∧ OccursAt 'r' 4 text m.start args ∧
        m.stop = m.start + (occurrenceText 'r' args).length ∧ m.caps = argCaps 1 args [] ∧
        ∀ j args', s ≤ j → j < m.start → ¬ OccursAt 'r' 4 text j args') ∧
    (regex_search text s scalePattern = some m ↔
      ∃ args, s ≤ m.start ∧ OccursAt 's' 3 text m.start args ∧
        m.stop = m.start + (occurrenceText 's' args).length ∧ m.caps = argCaps 1 args [] ∧
        ∀ j args', s ≤ j → j < m.start → ¬ OccursAt 's' 3 text j args') :=
  ⟨regex_search_shape hasShape_translate text s m, regex_search_shape hasShape_rotate text s m,
    regex_search_shape hasShape_scale text s m⟩

set_option maxRecDepth 100000 in
/-- C10 fails on its own examples: `rot 1 2 3` yields the translation by
`(1, 2, 3)`, and `t 1-2 3.4.5 6` yields the translation by `(1, 3.4, 6)`. -/
theorem unrecognised_text_counterexample :
    (applyTransformations binary32Overflow "a rot 1 2 3".toList sampleProgram).map
        (fun p' => p'.gameObjects.map GameObject.modelMatrix) =
      some [[.translate (.ofNat 1) (.ofNat 2) (.ofNat 3)]] ∧
    (applyTransformations binary32Overflow "a t 1-2 3.4.5 6".toList sampleProgram).map
        (fun p' => p'.gameObjects.map GameObject.modelMatrix) =
      some [[.translate (.ofNat 1) ⟨false, 34, 1⟩ (.ofNat 6)]] := by
  decide

end GLProject
